import Mathlib

/-!
# Verification of the markd markdown server

A shallow embedding of `src/server.js` (two variants: the hardened variant and
the legacy variant that follows it in the file).  Strings are modelled through
their character lists; the Node `path.posix` helpers, `decodeURIComponent`,
and the JavaScript string `replaceAll` / `replace` methods are modelled
explicitly below.  Markdown conversion (`marked.parse`), HTML sanitisation
(`sanitize-html`) and SHA-256 (`crypto`) are external black-box collaborators
and are carried as opaque function parameters in the environment record, as
the specification directs.
-/

namespace Markd

/-- JavaScript `s.split(sep)` for a single-character separator, on char lists.
`"a/b".split("/") = ["a","b"]`, `"/b".split("/") = ["","b"]`. -/
def splitChar (sep : Char) : List Char → List (List Char)
  | [] => [[]]
  | c :: rest =>
    match splitChar sep rest with
    | [] => [[c]]
    | s :: ss => if c = sep then [] :: s :: ss else (c :: s) :: ss

/-- Join a list of segments with a (possibly multi-character) separator;
`interJoin sep [a,b,c] = a ++ sep ++ b ++ sep ++ c`. -/
def interJoin (sep : List Char) : List (List Char) → List Char
  | [] => []
  | [x] => x
  | x :: xs => x ++ sep ++ interJoin sep xs

/-- Does `pat` occur as a contiguous subsequence of `l`?  (JS `includes`.) -/
def hasSub (pat : List Char) : List Char → Bool
  | [] => pat.isEmpty
  | c :: rest => pat.isPrefixOf (c :: rest) || hasSub pat rest

/-- Length of the longest common prefix of two segment lists. -/
def commonPrefixLen : List (List Char) → List (List Char) → Nat
  | a :: as, b :: bs => if a = b then commonPrefixLen as bs + 1 else 0
  | _, _ => 0

/-- The ECMAScript `GetSubstitution` algorithm, specialized to a string
search value (so there are no capture groups and no named captures): in the
replacement text, a dollar followed by a second dollar yields one dollar, a
dollar followed by an ampersand yields the matched text, a dollar followed
by a backquote (code 96) yields the part of the subject before the match, a
dollar followed by a single quote (code 39) yields the part after the
match, and every other dollar sequence — including digit references, since
there are no captures — is literal text. -/
def getSubstitution (matched before after : List Char) : List Char → List Char
  | [] => []
  | c :: rest =>
    if c = '$' then
      match rest with
      | [] => ['$']
      | d :: rest' =>
        if d = '$' then '$' :: getSubstitution matched before after rest'
        else if d = '&' then matched ++ getSubstitution matched before after rest'
        else if d = Char.ofNat 96 then before ++ getSubstitution matched before after rest'
        else if d = Char.ofNat 39 then after ++ getSubstitution matched before after rest'
        else '$' :: getSubstitution matched before after (d :: rest')
    else c :: getSubstitution matched before after rest

/-- Fuel-driven worker for JavaScript `replaceAll` (leftmost,
non-overlapping, no rescanning of the replacement): each match at position
`pos` of the original subject `str` is replaced by the `GetSubstitution`
expansion of `rep` for that position.  Fuel is the length of the remaining
subject, which suffices because every step consumes at least one character
when `pat ≠ []`. -/
def replCharsF (pat rep str : List Char) : Nat → Nat → List Char → List Char
  | _, _, [] => []
  | 0, _, l => l
  | fuel + 1, pos, c :: rest =>
    if pat ≠ [] ∧ pat.isPrefixOf (c :: rest) then
      getSubstitution pat (str.take pos) (str.drop (pos + pat.length)) rep ++
        replCharsF pat rep str fuel (pos + pat.length) ((c :: rest).drop pat.length)
    else
      c :: replCharsF pat rep str fuel (pos + 1) rest

/-- JavaScript `replaceAll` on char lists (for nonempty patterns). -/
def replChars (pat rep l : List Char) : List Char :=
  replCharsF pat rep l l.length 0 l

/-- JavaScript `replaceAll` with the empty pattern: a match at every
position of the subject, each replaced by its `GetSubstitution`
expansion. -/
def replAllEmpty (rep str : List Char) : Nat → List Char → List Char
  | pos, [] => getSubstitution [] (str.take pos) (str.drop pos) rep
  | pos, c :: rest =>
    getSubstitution [] (str.take pos) (str.drop pos) rep ++
      c :: replAllEmpty rep str (pos + 1) rest

/-- JavaScript `replace` (first occurrence only) on char lists, for a
nonempty pattern; `pos` tracks the position in the original subject
`str` for `GetSubstitution`. -/
def replFirstChars (pat rep str : List Char) : Nat → List Char → List Char
  | _, [] => []
  | pos, c :: rest =>
    if pat.isPrefixOf (c :: rest) then
      getSubstitution pat (str.take pos) (str.drop (pos + pat.length)) rep ++
        (c :: rest).drop pat.length
    else c :: replFirstChars pat rep str (pos + 1) rest

/-- Fuel-driven leftmost non-overlapping split on a string pattern, the scan
underlying JS `split` / `replaceAll` (for nonempty patterns). -/
def splitSeqF (pat : List Char) : Nat → List Char → List (List Char)
  | _, [] => [[]]
  | 0, l => [l]
  | fuel + 1, c :: rest =>
    if pat ≠ [] ∧ pat.isPrefixOf (c :: rest) then
      [] :: splitSeqF pat fuel ((c :: rest).drop pat.length)
    else
      match splitSeqF pat fuel rest with
      | [] => [[c]]
      | s :: ss => (c :: s) :: ss

/-- Leftmost non-overlapping split of `l` on the nonempty pattern `pat`. -/
def splitSeq (pat l : List Char) : List (List Char) :=
  splitSeqF pat l.length l

/-!
## `decodeURIComponent`

Modelled after the ECMAScript `Decode` abstract operation with an empty
reserved set: each `%XX` escape contributes a byte, maximal runs of bytes must
form valid (shortest-form) UTF-8 with no surrogate code points, and any
malformed escape or invalid byte sequence raises `URIError` (here: `none`). -/

def hexVal (c : Char) : Option Nat :=
  if '0' ≤ c ∧ c ≤ '9' then some (c.toNat - 48)
  else if 'A' ≤ c ∧ c ≤ 'F' then some (c.toNat - 55)
  else if 'a' ≤ c ∧ c ≤ 'f' then some (c.toNat - 87)
  else none

/-- First pass: turn `%XX` escapes into raw bytes, leave other characters
alone; fails on a malformed escape. -/
def pctItems : List Char → Option (List (Char ⊕ Nat))
  | [] => some []
  | c :: rest =>
    if c = '%' then
      match rest with
      | h :: lo :: rest' =>
        match hexVal h, hexVal lo with
        | some hv, some lv =>
          match pctItems rest' with
          | some tl => some (Sum.inr (hv * 16 + lv) :: tl)
          | none => none
        | _, _ => none
      | _ => none
    else
      match pctItems rest with
      | some tl => some (Sum.inl c :: tl)
      | none => none

/-- A UTF-8 continuation byte's payload. -/
def contVal : Char ⊕ Nat → Option Nat
  | Sum.inr b => if 128 ≤ b ∧ b < 192 then some (b - 128) else none
  | Sum.inl _ => none

/-- Second pass: reassemble byte runs into scalar values (strict UTF-8:
no overlong forms, no surrogates, max U+10FFFF). -/
def utf8Assemble : List (Char ⊕ Nat) → Option (List Char)
  | [] => some []
  | Sum.inl c :: rest =>
    match utf8Assemble rest with
    | some tl => some (c :: tl)
    | none => none
  | Sum.inr b :: rest =>
    if b < 128 then
      match utf8Assemble rest with
      | some tl => some (Char.ofNat b :: tl)
      | none => none
    else if b < 194 then none
    else if b < 224 then
      match rest with
      | i1 :: rest' =>
        match contVal i1 with
        | some v1 =>
          match utf8Assemble rest' with
          | some tl => some (Char.ofNat ((b - 192) * 64 + v1) :: tl)
          | none => none
        | none => none
      | [] => none
    else if b < 240 then
      match rest with
      | i1 :: i2 :: rest' =>
        match contVal i1, contVal i2 with
        | some v1, some v2 =>
          if (b - 224) * 4096 + v1 * 64 + v2 < 2048 then none
          else if 55296 ≤ (b - 224) * 4096 + v1 * 64 + v2 ∧
              (b - 224) * 4096 + v1 * 64 + v2 ≤ 57343 then none
          else
            match utf8Assemble rest' with
            | some tl => some (Char.ofNat ((b - 224) * 4096 + v1 * 64 + v2) :: tl)
            | none => none
        | _, _ => none
      | _ => none
    else if b < 245 then
      match rest with
      | i1 :: i2 :: i3 :: rest' =>
        match contVal i1, contVal i2, contVal i3 with
        | some v1, some v2, some v3 =>
          if (b - 240) * 262144 + v1 * 4096 + v2 * 64 + v3 < 65536 then none
          else if 1114111 < (b - 240) * 262144 + v1 * 4096 + v2 * 64 + v3 then none
          else
            match utf8Assemble rest' with
            | some tl =>
              some (Char.ofNat ((b - 240) * 262144 + v1 * 4096 + v2 * 64 + v3) :: tl)
            | none => none
        | _, _, _ => none
      | _ => none
    else none

/-- `decodeURIComponent`, `none` modelling a thrown `URIError`. -/
def decodeChars (l : List Char) : Option (List Char) :=
  match pctItems l with
  | none => none
  | some items => utf8Assemble items

/-!
## Node `path.posix` helpers

`normalizeString` in Node scans segments, dropping empty and `.` segments and
resolving `..` against the collected stack (keeping leading `..` only when
`allowAboveRoot`).  We model the scan as a fold over `split("/")`. -/

/-- The `..` case of Node's `normalizeString` scan: pop the last collected
segment, except that a stack ending in `..` (or an empty stack) instead keeps
or gains a `..` exactly when `allowAboveRoot`. -/
def normStackDD (allowAboveRoot : Bool) : List (List Char) → List (List Char)
  | [] => if allowAboveRoot then [['.', '.']] else []
  | top :: rest =>
    if top = ['.', '.'] then
      (if allowAboveRoot then ['.', '.'] :: top :: rest else top :: rest)
    else rest

/-- One step of Node's `normalizeString` segment scan.  The accumulator is the
reversed stack of kept segments. -/
def normStack (allowAboveRoot : Bool) (acc : List (List Char)) (seg : List Char) :
    List (List Char) :=
  if seg = [] ∨ seg = ['.'] then acc
  else if seg = ['.', '.'] then normStackDD allowAboveRoot acc
  else seg :: acc

/-- The segments of Node's `normalizeString p allowAboveRoot`. -/
def normSegs (allowAboveRoot : Bool) (p : List Char) : List (List Char) :=
  ((splitChar '/' p).foldl (normStack allowAboveRoot) []).reverse

/-- `path.posix.normalize` on char lists, following Node's implementation
(including the empty-input `"."` result and trailing-separator preservation). -/
def normalizeChars (p : List Char) : List Char :=
  if p = [] then ['.']
  else
    let isAbs := p.head? = some '/'
    let trailing := p.getLast? = some '/'
    let segs := normSegs (!isAbs) p
    let body := interJoin ['/'] segs
    if body = [] then
      if isAbs then ['/'] else if trailing then ['.', '/'] else ['.']
    else
      let body := if trailing then body ++ ['/'] else body
      if isAbs then '/' :: body else body

/-- `path.resolve(a, b)` for the case exercised by the program, where `a`
(the pages directory) is an absolute path: the working directory is never
consulted, and the result is absolute. -/
def resolveChars (a b : List Char) : List Char :=
  let combined := if b.head? = some '/' then b else a ++ '/' :: b
  let isAbs := combined.head? = some '/'
  let segs := normSegs (!isAbs) combined
  let body := interJoin ['/'] segs
  if isAbs then '/' :: body
  else if body = [] then ['.'] else body

/-- `path.resolve(p)` for an absolute `p` (as `path.relative` applies it to
its two arguments, both absolute in this program). -/
def resolveOneAbs (a : List Char) : List Char :=
  '/' :: interJoin ['/'] (normSegs false a)

/-- `path.posix.relative(f, t)` for absolute `f` and `t`: resolve both, take
the common segment prefix, climb with `..` and descend with the remainder. -/
def relativeChars (f t : List Char) : List Char :=
  if f = t then []
  else
    let f' := resolveOneAbs f
    let t' := resolveOneAbs t
    if f' = t' then []
    else
      let fsegs := normSegs false f'
      let tsegs := normSegs false t'
      let k := commonPrefixLen fsegs tsegs
      interJoin ['/'] (List.replicate (fsegs.length - k) ['.', '.'] ++ tsegs.drop k)

/-- `path.posix.join(a, b)`: concatenate with `/` and normalize. -/
def joinChars (a b : List Char) : List Char :=
  let joined := if a = [] then b else if b = [] then a else a ++ '/' :: b
  if joined = [] then ['.'] else normalizeChars joined

/-!
## JavaScript string methods used by `renderTemplate`

`replaceAll` / `replace` with string patterns.  The replacement string
undergoes the `GetSubstitution` dollar-escape expansion at every match, as
in ECMAScript (with a string search value there are no capture groups, so
digit references stay literal).
-/

/-- JS `s.replaceAll(pat, rep)` (every occurrence, left to right,
non-overlapping; an empty pattern matches at every position). -/
def jsReplaceAll (s pat rep : String) : String :=
  if pat.data = [] then ⟨replAllEmpty rep.data s.data 0 s.data⟩
  else ⟨replChars pat.data rep.data s.data⟩

/-- JS `s.replace(pat, rep)` for a string pattern (first occurrence only;
an empty pattern matches at position 0). -/
def jsReplaceFirst (s pat rep : String) : String :=
  if pat.data = [] then ⟨getSubstitution [] [] s.data rep.data ++ s.data⟩
  else ⟨replFirstChars pat.data rep.data s.data 0 s.data⟩

/-!
## The server state and collaborators
-/

/-- The template placeholder tokens (written with escaped braces). -/
def siteTok : String := "\x7b\x7bsite\x7d\x7d"

def authorTok : String := "\x7b\x7bauthor\x7d\x7d"

def copydateTok : String := "\x7b\x7bcopydate\x7d\x7d"

def titleTok : String := "\x7b\x7btitle\x7d\x7d"

def navTok : String := "\x7b\x7bnav\x7d\x7d"

def contentTok : String := "\x7b\x7bcontent\x7d\x7d"

/-- The server's configuration and its external black-box collaborators:
the loaded template, the content-root directory (`pagesDir`), the navigation
file path, `marked.parse`, the two `sanitize-html` policies used by the
program (page policy: default tags plus img/h1/h2/h3/pre/code with
a[href,name,target] and img[src,alt]; nav policy: default tags with
a[href,name,target]), and the SHA-256 hex digest. -/
structure Env where
  siteName : String
  author : String
  copydate : String
  template : String
  pagesDir : String
  navPath : String
  markedParse : String → String
  sanitizePage : String → String
  sanitizeNav : String → String
  hash : String → String

/-- The filesystem as seen by the request: `existsSync`, and `readFileSync`
where `none` models a thrown read error (the file disappeared, is a
directory, permissions, ...). -/
structure FS where
  existsSync : String → Bool
  readFileSync : String → Option String

/-- A hardened-variant cache entry: `{ hash, html, etag }`. -/
structure CacheEntry where
  hash : String
  html : String
  etag : String
deriving DecidableEq

/-- The hardened variant's `pageCache` map. -/
def Cache := String → Option CacheEntry

/-- `pageCache.set route entry`. -/
def cacheSet (c : Cache) (k : String) (v : CacheEntry) : Cache :=
  fun r => if r = k then some v else c r

/-- The empty cache (server start). -/
def emptyCache : Cache := fun _ => none

/-- A legacy-variant cache entry: `{ hash, html }`. -/
structure CacheEntryL where
  hash : String
  html : String
deriving DecidableEq

/-- The legacy variant's `pageCache` map. -/
def CacheL := String → Option CacheEntryL

/-- `pageCache.set route entry` (legacy). -/
def cacheSetL (c : CacheL) (k : String) (v : CacheEntryL) : CacheL :=
  fun r => if r = k then some v else c r

/-- The empty legacy cache. -/
def emptyCacheL : CacheL := fun _ => none

/-!
## The server functions (hardened variant first, legacy second)
-/

/-- `sanitiseUrl` (identical in both variants): strip query and fragment,
percent-decode (`null` on failure), POSIX-normalize, force a leading `/`,
strip one trailing `/` unless the result is exactly `/`, and map `""`
to `/`. -/
def sanitiseUrl (urlPath : String) : Option String :=
  let clean := (urlPath.data.takeWhile (fun c => c != '?')).takeWhile (fun c => c != '#')
  match decodeChars clean with
  | none => none
  | some d =>
    let n := normalizeChars d
    let n := if n.head? = some '/' then n else '/' :: n
    let n := if n.getLast? = some '/' ∧ n ≠ ['/'] then n.dropLast else n
    let n := if n = [] then ['/'] else n
    some ⟨n⟩

/-- Hardened `routeToFile`: resolve `<pagesDir>/<name>.md` and reject any
candidate whose path relative to the content root starts with `..` or is
absolute. -/
def routeToFile (pagesDir : String) (cleanPath : String) : Option String :=
  let name := if cleanPath = "/" then "index".data else cleanPath.data.drop 1
  let candidate := resolveChars pagesDir.data (name ++ ".md".data)
  let rel := relativeChars pagesDir.data candidate
  if ['.', '.'].isPrefixOf rel ∨ rel.head? = some '/' then none
  else some ⟨candidate⟩

/-- Legacy `routeToFile`: join `<pagesDir>/<name>.md` and keep it only if the
joined string starts with `pagesDir` (a naive string-prefix containment
check). -/
def routeToFileLegacy (pagesDir : String) (cleanPath : String) : Option String :=
  let name := if cleanPath = "/" then "index".data else cleanPath.data.drop 1
  let file := joinChars pagesDir.data (name ++ ".md".data)
  if pagesDir.data.isPrefixOf file then some ⟨file⟩ else none

/-- `buildNav`: read and render `nav.md`; a missing file or any read failure
degrades to the empty navigation block. -/
def buildNav (env : Env) (fs : FS) : String :=
  if fs.existsSync env.navPath = false then ""
  else
    match fs.readFileSync env.navPath with
    | none => ""
    | some md => env.sanitizeNav (env.markedParse md)

/-- Hardened `renderTemplate`: global (`replaceAll`) substitution of the six
placeholder tokens, in source order. -/
def renderTemplate (env : Env) (fs : FS) (title content : String) : String :=
  jsReplaceAll
    (jsReplaceAll
      (jsReplaceAll
        (jsReplaceAll
          (jsReplaceAll
            (jsReplaceAll env.template siteTok env.siteName)
            authorTok env.author)
          copydateTok env.copydate)
        titleTok title)
      navTok (buildNav env fs))
    contentTok content

/-- Legacy `renderTemplate`: first-occurrence (`replace`) substitution of
five tokens (the legacy template has no `nav` placeholder). -/
def renderTemplateLegacy (env : Env) (title content : String) : String :=
  jsReplaceFirst
    (jsReplaceFirst
      (jsReplaceFirst
        (jsReplaceFirst
          (jsReplaceFirst env.template siteTok env.siteName)
          authorTok env.author)
        copydateTok env.copydate)
      titleTok title)
    contentTok content

/-- Page title: the route with its leading slash stripped, or `"index"` for
the root route. -/
def titleOf (route : String) : String :=
  if route = "/" then "index" else ⟨route.data.drop 1⟩

/-- The miss path of the hardened `buildPage`: convert, sanitize, wrap in the
template, compute the quoted ETag of the fully rendered HTML, and store the
fresh entry under the route.  The final `Bool` is instrumentation recording
that the renderer ran. -/
def renderPage (env : Env) (fs : FS) (cache : Cache) (route contentHash md : String) :
    CacheEntry × Cache × Bool :=
  let rawHtml := env.markedParse md
  let htmlBody := env.sanitizePage rawHtml
  let fullHtml := renderTemplate env fs (titleOf route) htmlBody
  let etag := "\"" ++ env.hash fullHtml ++ "\""
  let result : CacheEntry := ⟨contentHash, fullHtml, etag⟩
  (result, cacheSet cache route result, true)

/-- Hardened `buildPage`: read the source, hash it, serve the cached entry on
a hash match, otherwise render and replace the entry.  `none` models a thrown
read error; the `Bool` records whether the renderer ran. -/
def buildPage (env : Env) (fs : FS) (cache : Cache) (route filePath : String) :
    Option (CacheEntry × Cache × Bool) :=
  match fs.readFileSync filePath with
  | none => none
  | some md =>
    let contentHash := env.hash md
    match cache route with
    | some cached =>
      if cached.hash = contentHash then some (cached, cache, false)
      else some (renderPage env fs cache route contentHash md)
    | none => some (renderPage env fs cache route contentHash md)

/-- The miss path of the legacy `buildPage` (no sanitizer, no ETag). -/
def renderPageLegacy (env : Env) (cache : CacheL) (route newHash md : String) :
    String × CacheL × Bool :=
  let htmlBody := env.markedParse md
  let fullHtml := renderTemplateLegacy env (titleOf route) htmlBody
  (fullHtml, cacheSetL cache route ⟨newHash, fullHtml⟩, true)

/-- Legacy `buildPage`: returns the HTML string (`cached.html` on a hit). -/
def buildPageLegacy (env : Env) (fs : FS) (cache : CacheL) (route filePath : String) :
    Option (String × CacheL × Bool) :=
  match fs.readFileSync filePath with
  | none => none
  | some md =>
    let newHash := env.hash md
    match cache route with
    | some cached =>
      if cached.hash = newHash then some (cached.html, cache, false)
      else some (renderPageLegacy env cache route newHash md)
    | none => some (renderPageLegacy env cache route newHash md)

/-- An incoming request: method, raw URL, and the `If-None-Match` header. -/
structure Request where
  method : String
  url : String
  ifNoneMatch : Option String

/-- A response: status, body, and two pieces of instrumentation — which
resolved file the page was built from (200/304 only) and whether the
renderer ran during this request. -/
structure Response where
  status : Nat
  body : String
  servedFile : Option String
  rendered : Bool
deriving DecidableEq

/-- The hardened request handler: GET only; sanitise (`null` and the falsy
empty string give 400); resolve (`null`/falsy gives 403); 404 on a missing
file; `buildPage` inside try/catch (500 on a read error); 304 when
`If-None-Match` equals the stored ETag byte-for-byte; otherwise 200 with the
rendered HTML. -/
def handle (env : Env) (fs : FS) (cache : Cache) (req : Request) : Response × Cache :=
  if req.method ≠ "GET" then (⟨405, "Method Not Allowed", none, false⟩, cache)
  else
    match sanitiseUrl req.url with
    | none => (⟨400, "Bad Request", none, false⟩, cache)
    | some cleanPath =>
      if cleanPath = "" then (⟨400, "Bad Request", none, false⟩, cache)
      else
        match routeToFile env.pagesDir cleanPath with
        | none => (⟨403, "Forbidden", none, false⟩, cache)
        | some filePath =>
          if filePath = "" then (⟨403, "Forbidden", none, false⟩, cache)
          else if fs.existsSync filePath = false then
            (⟨404, "Not Found", none, false⟩, cache)
          else
            match buildPage env fs cache cleanPath filePath with
            | none => (⟨500, "Internal Server Error", none, false⟩, cache)
            | some (page, cache', r) =>
              if req.ifNoneMatch = some page.etag then
                (⟨304, "", some filePath, r⟩, cache')
              else (⟨200, page.html, some filePath, r⟩, cache')

/-- The legacy request handler: GET and POST accepted, no conditional GET. -/
def handleLegacy (env : Env) (fs : FS) (cache : CacheL) (req : Request) :
    Response × CacheL :=
  if req.method ≠ "GET" ∧ req.method ≠ "POST" then
    (⟨405, "Method Not Allowed", none, false⟩, cache)
  else
    match sanitiseUrl req.url with
    | none => (⟨400, "Bad Request", none, false⟩, cache)
    | some cleanPath =>
      if cleanPath = "" then (⟨400, "Bad Request", none, false⟩, cache)
      else
        match routeToFileLegacy env.pagesDir cleanPath with
        | none => (⟨403, "Forbidden", none, false⟩, cache)
        | some filePath =>
          if filePath = "" then (⟨403, "Forbidden", none, false⟩, cache)
          else if fs.existsSync filePath = false then
            (⟨404, "Not Found", none, false⟩, cache)
          else
            match buildPageLegacy env fs cache cleanPath filePath with
            | none => (⟨500, "Internal Server Error", none, false⟩, cache)
            | some (html, cache', r) =>
              (⟨200, html, some filePath, r⟩, cache')

/-!
## Derived notions used by the theorems
-/

/-- `d` is in canonical absolute form: it is a fixed point of
`path.resolve`. -/
def goodDir (d : String) : Prop := d.data = resolveOneAbs d.data

/-- Containment in the content root, as segment-prefix of the resolved
paths: `f` is `d` itself or lies below `d`. -/
def isWithin (d f : String) : Bool :=
  (normSegs false d.data).isPrefixOf (normSegs false f.data)

/-- A well-formed path segment: nonempty, not a dot segment, slash-free. -/
def goodSeg (s : List Char) : Prop :=
  s ≠ [] ∧ s ≠ ['.'] ∧ s ≠ ['.', '.'] ∧ '/' ∉ s

/-!
## Concrete instances used by the examples and witnesses
-/

/-- A concrete environment with content root `/srv/markd/pages`, a minimal
template, and simple stand-ins for the black-box collaborators. -/
def envH : Env where
  siteName := "S"
  author := "A"
  copydate := "2026"
  template := "<t>" ++ titleTok ++ "</t>" ++ contentTok
  pagesDir := "/srv/markd/pages"
  navPath := "/srv/markd/nav.md"
  markedParse := fun s => "<p>" ++ s ++ "</p>"
  sanitizePage := fun s => s
  sanitizeNav := fun s => s
  hash := fun s => s

/-- `envH` with a template that uses the title placeholder twice. -/
def envT : Env := { envH with template := titleTok ++ "|" ++ titleTok }

/-- A filesystem with a page `b.md` inside the content root and a file
`x.md` in the sibling directory `pages-evil` outside it; no `nav.md`. -/
def fsA : FS where
  existsSync := fun p =>
    p = "/srv/markd/pages/b.md" || p = "/srv/markd/pages-evil/x.md"
  readFileSync := fun p =>
    if p = "/srv/markd/pages/b.md" then some "B"
    else if p = "/srv/markd/pages-evil/x.md" then some "evil"
    else none

/-- `fsA` with a navigation file added: differs from `fsA` only at
`nav.md`. -/
def fsB : FS where
  existsSync := fun p =>
    p = "/srv/markd/pages/b.md" || p = "/srv/markd/pages-evil/x.md" ||
      p = "/srv/markd/nav.md"
  readFileSync := fun p =>
    if p = "/srv/markd/pages/b.md" then some "B"
    else if p = "/srv/markd/pages-evil/x.md" then some "evil"
    else if p = "/srv/markd/nav.md" then some "NAV"
    else none

/-- A filesystem where the page exists but every read fails. -/
def fsErr : FS where
  existsSync := fun p => p = "/srv/markd/pages/b.md"
  readFileSync := fun _ => none

/-- A cache entry for route `/b` whose stored hash matches `fsA`'s `b.md`
under `envH.hash`. -/
def entryB : CacheEntry := ⟨"B", "cached-html", "\"etag-b\""⟩

/-- The entry `buildPage` freshly renders for route `/b` over `envH`/`fsA`. -/
def entryB2 : CacheEntry := ⟨"B", "<t>b</t><p>B</p>", "\"<t>b</t><p>B</p>\""⟩

/-- The cache after that fresh render. -/
def cacheB2 : Cache := cacheSet emptyCache "/b" entryB2

/-- A hardened cache holding `entryB` under route `/b`. -/
def cacheB : Cache := cacheSet emptyCache "/b" entryB

/-- A legacy cache entry for route `/b` matching `fsA`'s `b.md`. -/
def entryBL : CacheEntryL := ⟨"B", "cached-html-legacy"⟩

/-- A legacy cache holding `entryBL` under route `/b`. -/
def cacheBL : CacheL := cacheSetL emptyCacheL "/b" entryBL

/-!
## Lemmas about the list utilities
-/

theorem isPrefixOf_of_prefix {α : Type} [BEq α] [LawfulBEq α] {l₁ l₂ : List α}
    (h : l₁ <+: l₂) : l₁.isPrefixOf l₂ = true := by
  induction l₁ generalizing l₂ with
  | nil => simp
  | cons a l ih =>
    rcases l₂ with _ | ⟨b, l₂⟩
    · exact absurd (List.eq_nil_of_prefix_nil h) (by simp)
    · rcases (List.cons_prefix_cons.mp h) with ⟨rfl, h'⟩
      simp [List.isPrefixOf_cons₂, ih h']

theorem splitChar_ne_nil (sep : Char) (l : List Char) : splitChar sep l ≠ [] := by
  induction l with
  | nil => simp [splitChar]
  | cons c rest ih =>
    rw [splitChar]
    rcases h : splitChar sep rest with _ | ⟨s, ss⟩
    · simp
    · by_cases hc : c = sep <;> simp [hc]

theorem splitChar_cons_eq {sep c : Char} {rest : List Char} {s : List Char}
    {ss : List (List Char)} (h : splitChar sep rest = s :: ss) :
    splitChar sep (c :: rest) = if c = sep then [] :: s :: ss else (c :: s) :: ss := by
  rw [splitChar, h]

theorem splitChar_dest (sep : Char) (rest : List Char) :
    ∃ s ss, splitChar sep rest = s :: ss := by
  rcases h : splitChar sep rest with _ | ⟨s, ss⟩
  · exact absurd h (splitChar_ne_nil sep rest)
  · exact ⟨s, ss, rfl⟩

theorem splitChar_sep_not_mem (sep : Char) (l : List Char) :
    ∀ p ∈ splitChar sep l, sep ∉ p := by
  induction l with
  | nil => simp [splitChar]
  | cons c rest ih =>
    obtain ⟨s, ss, h⟩ := splitChar_dest sep rest
    rw [splitChar_cons_eq h]
    have hs : ∀ p ∈ s :: ss, sep ∉ p := h ▸ ih
    by_cases hc : c = sep
    · simp only [hc, if_pos rfl]
      intro p hp
      rcases List.mem_cons.mp hp with rfl | hp
      · simp
      · exact hs p hp
    · simp only [if_neg hc]
      intro p hp
      rcases List.mem_cons.mp hp with rfl | hp
      · intro hmem
        rcases List.mem_cons.mp hmem with rfl | hmem
        · exact hc rfl
        · exact hs s (by simp) hmem
      · exact hs p (by simp [hp])

theorem splitChar_chars_sub (sep : Char) (l : List Char) :
    ∀ p ∈ splitChar sep l, ∀ c ∈ p, c ∈ l := by
  induction l with
  | nil => simp [splitChar]
  | cons a rest ih =>
    obtain ⟨s, ss, h⟩ := splitChar_dest sep rest
    rw [splitChar_cons_eq h]
    have hs : ∀ p ∈ s :: ss, ∀ c ∈ p, c ∈ rest := h ▸ ih
    by_cases hc : a = sep
    · simp only [hc, if_pos rfl]
      intro p hp c hcp
      rcases List.mem_cons.mp hp with rfl | hp
      · simp at hcp
      · exact List.mem_cons_of_mem _ (hs p hp c hcp)
    · simp only [if_neg hc]
      intro p hp c hcp
      rcases List.mem_cons.mp hp with rfl | hp
      · rcases List.mem_cons.mp hcp with rfl | hcp
        · simp
        · exact List.mem_cons_of_mem _ (hs s (by simp) c hcp)
      · exact List.mem_cons_of_mem _ (hs p (by simp [hp]) c hcp)

theorem splitChar_no_sep {sep : Char} {l : List Char} (h : sep ∉ l) :
    splitChar sep l = [l] := by
  induction l with
  | nil => rfl
  | cons c rest ih =>
    have hcr : sep ∉ rest := fun hm => h (List.mem_cons_of_mem c hm)
    have hc : ¬ c = sep := fun hc => h (by simp [hc])
    rw [splitChar_cons_eq (ih hcr), if_neg hc]

theorem splitChar_append_sep {sep : Char} {x r : List Char} (hx : sep ∉ x) :
    splitChar sep (x ++ sep :: r) = x :: splitChar sep r := by
  induction x with
  | nil =>
    obtain ⟨s, ss, h⟩ := splitChar_dest sep r
    rw [List.nil_append, splitChar_cons_eq h, if_pos rfl, h]
  | cons c x' ih =>
    have hx' : sep ∉ x' := fun hm => hx (List.mem_cons_of_mem c hm)
    have hc : ¬ c = sep := fun hc => hx (by simp [hc])
    rw [List.cons_append]
    obtain ⟨s, ss, h⟩ := splitChar_dest sep (x' ++ sep :: r)
    rw [splitChar_cons_eq h, if_neg hc]
    have h2 := h.symm.trans (ih hx')
    injection h2 with h3 h4
    rw [h3, h4]

theorem interJoin_chars {sep : Char} {ss : List (List Char)} {c : Char}
    (h : c ∈ interJoin [sep] ss) : c = sep ∨ ∃ s ∈ ss, c ∈ s := by
  induction ss with
  | nil => simp [interJoin] at h
  | cons x xs ih =>
    rcases xs with _ | ⟨y, ys⟩
    · exact Or.inr ⟨x, by simp, h⟩
    · simp only [interJoin] at h
      rcases List.mem_append.mp h with h1 | h2
      · rcases List.mem_append.mp h1 with ha | hb
        · exact Or.inr ⟨x, by simp, ha⟩
        · exact Or.inl (by simpa using hb)
      · rcases ih h2 with h3 | ⟨s, hs, hcs⟩
        · exact Or.inl h3
        · exact Or.inr ⟨s, by simp [hs], hcs⟩

theorem interJoin_sep_split {ss : List (List Char)}
    (h : ∀ s ∈ ss, s ≠ [] ∧ '/' ∉ s) (hne : ss ≠ []) :
    splitChar '/' (interJoin ['/'] ss) = ss := by
  induction ss with
  | nil => exact absurd rfl hne
  | cons x xs ih =>
    rcases xs with _ | ⟨y, ys⟩
    · exact splitChar_no_sep (h x (by simp)).2
    · have hx := h x (by simp)
      have hrest : ∀ s ∈ y :: ys, s ≠ [] ∧ '/' ∉ s := fun s hs => h s (by simp [hs])
      have hrw : interJoin ['/'] (x :: y :: ys) = x ++ '/' :: interJoin ['/'] (y :: ys) := by
        show x ++ ['/'] ++ interJoin ['/'] (y :: ys) = _
        rw [List.append_assoc]
        rfl
      rw [hrw, splitChar_append_sep hx.2, ih hrest (by simp)]

theorem interJoin_ne_nil {ss : List (List Char)} (hne : ss ≠ [])
    (h : ∀ s ∈ ss, s ≠ []) : interJoin ['/'] ss ≠ [] := by
  rcases ss with _ | ⟨x, xs⟩
  · exact absurd rfl hne
  · rcases xs with _ | ⟨y, ys⟩
    · exact h x (by simp)
    · have hx : x ≠ [] := h x (by simp)
      show x ++ ['/'] ++ interJoin ['/'] (y :: ys) ≠ []
      simp [hx]

theorem interJoin_cons_starts (x : List Char) (xs : List (List Char)) :
    x.isPrefixOf (interJoin ['/'] (x :: xs)) = true := by
  rcases xs with _ | ⟨y, ys⟩
  · exact isPrefixOf_of_prefix (List.prefix_refl x)
  · exact isPrefixOf_of_prefix
      ⟨['/'] ++ interJoin ['/'] (y :: ys), (List.append_assoc x ['/'] _).symm⟩

theorem interJoin_getLast_ne {ss : List (List Char)} (hne : ss ≠ [])
    (h : ∀ s ∈ ss, s ≠ [] ∧ '/' ∉ s) :
    (interJoin ['/'] ss).getLast? ≠ some '/' := by
  induction ss with
  | nil => exact absurd rfl hne
  | cons x xs ih =>
    rcases xs with _ | ⟨y, ys⟩
    · have hx := h x (by simp)
      intro hc
      exact hx.2 (List.mem_of_getLast?_eq_some hc)
    · have hrest : ∀ s ∈ y :: ys, s ≠ [] ∧ '/' ∉ s := fun s hs => h s (by simp [hs])
      have hj : interJoin ['/'] (y :: ys) ≠ [] :=
        interJoin_ne_nil (by simp) (fun s hs => (hrest s hs).1)
      show ((x ++ ['/']) ++ interJoin ['/'] (y :: ys)).getLast? ≠ some '/'
      rw [List.getLast?_append_of_ne_nil _ hj]
      exact ih (by simp) hrest

/-!
## Lemmas about the segment normalization scan
-/

theorem normStack_good {acc : List (List Char)} {seg : List Char}
    (hacc : ∀ x ∈ acc, goodSeg x) (hseg : '/' ∉ seg) :
    ∀ x ∈ normStack false acc seg, goodSeg x := by
  by_cases h1 : seg = [] ∨ seg = ['.']
  · rw [normStack, if_pos h1]
    exact hacc
  · by_cases h2 : seg = ['.', '.']
    · rw [normStack, if_neg h1, if_pos h2]
      rcases acc with _ | ⟨top, rest⟩
      · simp [normStackDD]
      · by_cases h3 : top = ['.', '.']
        · subst h3
          simpa [normStackDD] using hacc
        · simp only [normStackDD, if_neg h3]
          exact fun x hx => hacc x (List.mem_cons_of_mem top hx)
    · rw [normStack, if_neg h1, if_neg h2]
      intro x hx
      rcases List.mem_cons.mp hx with rfl | hx
      · push_neg at h1
        exact ⟨h1.1, h1.2, h2, hseg⟩
      · exact hacc x hx

theorem foldl_normStack_good {segs : List (List Char)} {acc : List (List Char)}
    (hsegs : ∀ s ∈ segs, '/' ∉ s) (hacc : ∀ x ∈ acc, goodSeg x) :
    ∀ x ∈ segs.foldl (normStack false) acc, goodSeg x := by
  induction segs generalizing acc with
  | nil => exact hacc
  | cons s rest ih =>
    exact ih (fun t ht => hsegs t (by simp [ht]))
      (normStack_good hacc (hsegs s (by simp)))

theorem normSegs_good (l : List Char) : ∀ x ∈ normSegs false l, goodSeg x := by
  intro x hx
  rw [normSegs, List.mem_reverse] at hx
  exact foldl_normStack_good (fun s hs => splitChar_sep_not_mem '/' l s hs)
    (by simp) x hx

theorem normStack_push {acc : List (List Char)} {seg : List Char} (h : goodSeg seg) :
    normStack false acc seg = seg :: acc := by
  rw [normStack, if_neg (by
    rintro (rfl | rfl)
    · exact h.1 rfl
    · exact h.2.1 rfl), if_neg h.2.2.1]

theorem foldl_normStack_push {segs : List (List Char)} {acc : List (List Char)}
    (h : ∀ s ∈ segs, goodSeg s) :
    segs.foldl (normStack false) acc = segs.reverse ++ acc := by
  induction segs generalizing acc with
  | nil => simp
  | cons s rest ih =>
    rw [List.foldl_cons, normStack_push (h s (by simp)),
      ih (fun t ht => h t (by simp [ht]))]
    simp

theorem normSegs_roundtrip {ss : List (List Char)} (h : ∀ s ∈ ss, goodSeg s) :
    normSegs false ('/' :: interJoin ['/'] ss) = ss := by
  rcases ss with _ | ⟨x, xs⟩
  · decide
  · have hsplit : splitChar '/' ('/' :: interJoin ['/'] (x :: xs)) = [] :: x :: xs := by
      obtain ⟨s, ss', hdd⟩ := splitChar_dest '/' (interJoin ['/'] (x :: xs))
      rw [splitChar_cons_eq hdd, if_pos rfl, ← hdd,
        interJoin_sep_split (fun s hs => ⟨(h s hs).1, (h s hs).2.2.2⟩) (by simp)]
    have h0 : normStack false [] ([] : List Char) = [] := by
      rw [normStack, if_pos (Or.inl rfl)]
    rw [normSegs, hsplit, List.foldl_cons, h0, foldl_normStack_push h]
    simp

/-!
## Lemmas about `commonPrefixLen`, `resolveChars` and `relativeChars`
-/

theorem commonPrefixLen_le (as bs : List (List Char)) :
    commonPrefixLen as bs ≤ as.length := by
  induction as generalizing bs with
  | nil => cases bs <;> simp [commonPrefixLen]
  | cons a as ih =>
    cases bs with
    | nil => simp [commonPrefixLen]
    | cons b bs =>
      rw [commonPrefixLen]
      by_cases hab : a = b
      · rw [if_pos hab]
        exact Nat.succ_le_succ (ih bs)
      · rw [if_neg hab]
        exact Nat.zero_le _

theorem commonPrefixLen_eq_len {as bs : List (List Char)}
    (h : commonPrefixLen as bs = as.length) : as.isPrefixOf bs = true := by
  induction as generalizing bs with
  | nil => simp
  | cons a as ih =>
    cases bs with
    | nil => simp [commonPrefixLen] at h
    | cons b bs =>
      rw [commonPrefixLen] at h
      by_cases hab : a = b
      · rw [if_pos hab] at h
        subst hab
        simp only [List.length_cons, Nat.add_right_cancel_iff] at h
        simp [List.isPrefixOf_cons₂, ih h]
      · rw [if_neg hab] at h
        simp at h

theorem resolveChars_eq_of_abs {a b : List Char}
    (h : (if b.head? = some '/' then b else a ++ '/' :: b).head? = some '/') :
    resolveChars a b =
      '/' :: interJoin ['/']
        (normSegs false (if b.head? = some '/' then b else a ++ '/' :: b)) := by
  rw [resolveChars]
  simp only [h, decide_True, Bool.not_true, if_true]

theorem goodDir_data {d : String} (hd : goodDir d) :
    d.data = '/' :: interJoin ['/'] (normSegs false d.data) := hd

theorem goodDir_head {d : String} (hd : goodDir d) : d.data.head? = some '/' := by
  rw [goodDir_data hd]
  rfl

/-- With an absolute, canonical pages directory, every `resolveChars` result
is the canonical absolute path of a well-formed segment list, and taking its
segments again recovers that list. -/
theorem resolveChars_canonical {d : String} (hd : goodDir d) (b : List Char) :
    ∃ ts, resolveChars d.data b = '/' :: interJoin ['/'] ts ∧
      (∀ s ∈ ts, goodSeg s) ∧ normSegs false (resolveChars d.data b) = ts := by
  have hdh : d.data.head? = some '/' := goodDir_head hd
  have hcomb : (if b.head? = some '/' then b else d.data ++ '/' :: b).head? = some '/' := by
    split_ifs with hb
    · exact hb
    · rcases hdd : d.data with _ | ⟨x, t⟩
      · rw [hdd] at hdh
        simp at hdh
      · rw [hdd] at hdh
        simp only [List.head?_cons, Option.some.injEq] at hdh
        simp [hdh]
  refine ⟨normSegs false (if b.head? = some '/' then b else d.data ++ '/' :: b),
    resolveChars_eq_of_abs hcomb, fun s hs => normSegs_good _ s hs, ?_⟩
  rw [resolveChars_eq_of_abs hcomb]
  exact normSegs_roundtrip (fun s hs => normSegs_good _ s hs)

/-- If the hardened guard on `path.relative(pagesDir, candidate)` passes,
the pages directory's segments are a prefix of the candidate's segments. -/
theorem relativeChars_guard {d : String} (hd : goodDir d) {t : List Char}
    {ts : List (List Char)} (hteq : t = '/' :: interJoin ['/'] ts)
    (htsg : ∀ s ∈ ts, goodSeg s) (htn : normSegs false t = ts)
    (hguard : ¬(['.', '.'].isPrefixOf (relativeChars d.data t) = true ∨
      (relativeChars d.data t).head? = some '/')) :
    (normSegs false d.data).isPrefixOf (normSegs false t) = true := by
  by_cases heq : d.data = t
  · rw [heq]
    exact isPrefixOf_of_prefix (List.prefix_refl _)
  · have hf' : resolveOneAbs d.data = d.data := hd.symm
    have ht' : resolveOneAbs t = t := by
      rw [resolveOneAbs, htn, ← hteq]
    have hrel : relativeChars d.data t =
        interJoin ['/'] (List.replicate
            ((normSegs false d.data).length -
              commonPrefixLen (normSegs false d.data) (normSegs false t)) ['.', '.'] ++
          (normSegs false t).drop
            (commonPrefixLen (normSegs false d.data) (normSegs false t))) := by
      simp only [relativeChars, if_neg heq, hf', ht']
    rw [hrel] at hguard
    set ds := normSegs false d.data with hds
    set k := commonPrefixLen ds (normSegs false t) with hk
    have hkle := commonPrefixLen_le ds (normSegs false t)
    rcases Nat.lt_or_ge k ds.length with hlt | hge
    · exfalso
      have hsub : ds.length - k = (ds.length - k - 1) + 1 := by omega
      rw [hsub, List.replicate_succ, List.cons_append] at hguard
      exact hguard (Or.inl (interJoin_cons_starts _ _))
    · exact commonPrefixLen_eq_len (le_antisymm hkle hge ▸ rfl)

theorem routeToFile_within_aux {d : String} (hd : goodDir d) (b : List Char) {f : String}
    (h : (if ['.', '.'].isPrefixOf (relativeChars d.data (resolveChars d.data b)) = true ∨
        (relativeChars d.data (resolveChars d.data b)).head? = some '/' then none
      else some (⟨resolveChars d.data b⟩ : String)) = some f) :
    isWithin d f = true := by
  split at h
  · exact absurd h (by simp)
  · next hg =>
    obtain ⟨ts, hteq, htsg, htn⟩ := resolveChars_canonical hd b
    injection h with h2
    rw [isWithin, ← h2]
    exact relativeChars_guard hd hteq htsg htn hg

/-- The hardened resolver only ever returns paths inside the content root. -/
theorem routeToFile_within {d c f : String} (hd : goodDir d)
    (h : routeToFile d c = some f) : isWithin d f = true :=
  routeToFile_within_aux hd ((if c = "/" then "index".data else c.data.drop 1) ++ ".md".data) h

/-!
## Structural lemmas about the server functions
-/

theorem normalizeChars_ne_nil (p : List Char) : normalizeChars p ≠ [] := by
  simp only [normalizeChars]
  split_ifs <;> simp_all

theorem resolveChars_ne_nil (a b : List Char) : resolveChars a b ≠ [] := by
  simp only [resolveChars]
  split_ifs <;> simp_all

theorem joinChars_ne_nil (a b : List Char) : joinChars a b ≠ [] := by
  simp only [joinChars]
  split_ifs <;> (first | exact normalizeChars_ne_nil _ | simp)

theorem ite_nil_ne_nil (X : List Char) : (if X = [] then ['/'] else X) ≠ [] := by
  split_ifs with h
  · simp
  · exact h

theorem sanitiseUrl_ne_empty {u c : String} (h : sanitiseUrl u = some c) : c ≠ "" := by
  simp only [sanitiseUrl] at h
  split at h
  · exact absurd h (by simp)
  · injection h with h2
    intro hceq
    rw [hceq] at h2
    exact ite_nil_ne_nil _ (congrArg String.data h2)

theorem routeToFile_ne_empty {d c f : String} (h : routeToFile d c = some f) :
    f ≠ "" := by
  have haux : ∀ (b : List Char),
      (if ['.', '.'].isPrefixOf (relativeChars d.data (resolveChars d.data b)) = true ∨
          (relativeChars d.data (resolveChars d.data b)).head? = some '/' then none
        else some (⟨resolveChars d.data b⟩ : String)) = some f → f ≠ "" := by
    intro b hb
    split at hb
    · exact absurd hb (by simp)
    · injection hb with h2
      intro hceq
      rw [hceq] at h2
      exact resolveChars_ne_nil _ _ (congrArg String.data h2)
  exact haux _ h

theorem routeToFileLegacy_ne_empty {d c f : String}
    (h : routeToFileLegacy d c = some f) : f ≠ "" := by
  have haux : ∀ (b : List Char),
      (if d.data.isPrefixOf (joinChars d.data b) = true then
        some (⟨joinChars d.data b⟩ : String) else none) = some f → f ≠ "" := by
    intro b hb
    split at hb
    · injection hb with h2
      intro hceq
      rw [hceq] at h2
      exact joinChars_ne_nil _ _ (congrArg String.data h2)
    · exact absurd hb (by simp)
  exact haux _ h

/-- A 200/304 response from the hardened handler records the resolved file,
and that file came from `routeToFile` on the sanitised path. -/
theorem handle_servedFile {env : Env} {fs : FS} {cache : Cache} {req : Request}
    {fp : String} (h : ((handle env fs cache req).1).servedFile = some fp) :
    ∃ c, sanitiseUrl req.url = some c ∧ routeToFile env.pagesDir c = some fp := by
  simp only [handle] at h
  split at h
  · simp at h
  · split at h
    · simp at h
    · next cleanPath hsan =>
      split at h
      · simp at h
      · split at h
        · simp at h
        · next filePath hroute =>
          split at h
          · simp at h
          · split at h
            · simp at h
            · split at h
              · simp at h
              · split at h
                · simp only [Option.some.injEq] at h
                  exact ⟨cleanPath, hsan, h ▸ hroute⟩
                · simp only [Option.some.injEq] at h
                  exact ⟨cleanPath, hsan, h ▸ hroute⟩

/-!
## Lemmas about the sanitiser: decode and normalization on clean input
-/

theorem takeWhile_all {l : List Char} {f : Char → Bool} (h : ∀ c ∈ l, f c = true) :
    l.takeWhile f = l := by
  induction l with
  | nil => rfl
  | cons c rest ih =>
    rw [List.takeWhile_cons, h c (by simp)]
    simp only [if_true]
    rw [ih (fun c hc => h c (by simp [hc]))]

theorem pctItems_no_pct {l : List Char} (h : '%' ∉ l) :
    pctItems l = some (l.map Sum.inl) := by
  induction l with
  | nil => rfl
  | cons c rest ih =>
    have hc : ¬ c = '%' := fun hcc => h (by simp [hcc])
    have hr : '%' ∉ rest := fun hm => h (by simp [hm])
    rw [pctItems.eq_def]
    simp only [if_neg hc, ih hr, List.map_cons]

theorem utf8Assemble_map_inl (l : List Char) :
    utf8Assemble (l.map Sum.inl) = some l := by
  induction l with
  | nil => rfl
  | cons c rest ih =>
    have hstep : utf8Assemble (Sum.inl c :: List.map Sum.inl rest) =
        match utf8Assemble (List.map Sum.inl rest) with
        | some tl => some (c :: tl)
        | none => none := rfl
    rw [List.map_cons, hstep, ih]

theorem decodeChars_no_pct {l : List Char} (h : '%' ∉ l) :
    decodeChars l = some l := by
  rw [decodeChars, pctItems_no_pct h]
  exact utf8Assemble_map_inl l

theorem normStack_chars_sub {l : List Char} {acc : List (List Char)} {seg : List Char}
    (hseg : ∀ c ∈ seg, c ∈ l) (hacc : ∀ x ∈ acc, ∀ c ∈ x, c ∈ l) :
    ∀ x ∈ normStack false acc seg, ∀ c ∈ x, c ∈ l := by
  by_cases h1 : seg = [] ∨ seg = ['.']
  · rw [normStack, if_pos h1]
    exact hacc
  · by_cases h2 : seg = ['.', '.']
    · rw [normStack, if_neg h1, if_pos h2]
      rcases acc with _ | ⟨top, rest⟩
      · simp [normStackDD]
      · by_cases h3 : top = ['.', '.']
        · subst h3
          simpa [normStackDD] using hacc
        · simp only [normStackDD, if_neg h3]
          exact fun x hx => hacc x (List.mem_cons_of_mem top hx)
    · rw [normStack, if_neg h1, if_neg h2]
      intro x hx
      rcases List.mem_cons.mp hx with rfl | hx
      · exact hseg
      · exact hacc x hx

theorem normSegs_chars_sub (l : List Char) :
    ∀ x ∈ normSegs false l, ∀ c ∈ x, c ∈ l := by
  have haux : ∀ (segs : List (List Char)) (acc : List (List Char)),
      (∀ s ∈ segs, ∀ c ∈ s, c ∈ l) → (∀ x ∈ acc, ∀ c ∈ x, c ∈ l) →
      ∀ x ∈ segs.foldl (normStack false) acc, ∀ c ∈ x, c ∈ l := by
    intro segs
    induction segs with
    | nil => exact fun acc _ hacc => hacc
    | cons s rest ih =>
      intro acc hsegs hacc
      exact ih _ (fun t ht => hsegs t (by simp [ht]))
        (normStack_chars_sub (hsegs s (by simp)) hacc)
  intro x hx
  rw [normSegs, List.mem_reverse] at hx
  exact haux _ [] (fun s hs => splitChar_chars_sub '/' l s hs) (by simp) x hx

theorem normalizeChars_abs {l : List Char} (habs : l.head? = some '/') :
    normalizeChars l =
      if interJoin ['/'] (normSegs false l) = [] then ['/']
      else '/' :: (if l.getLast? = some '/'
        then interJoin ['/'] (normSegs false l) ++ ['/']
        else interJoin ['/'] (normSegs false l)) := by
  have hne : l ≠ [] := by
    rintro rfl
    simp at habs
  simp only [normalizeChars, if_neg hne, habs, decide_True, Bool.not_true, if_true]

/-- On an absolute input free of `%`, `?` and `#`, the sanitiser returns the
canonical absolute path of the input's normalized segments. -/
theorem sanitiseUrl_canonical {p : String} (habs : p.data.head? = some '/')
    (hfree : ∀ ch ∈ p.data, ch ≠ '%' ∧ ch ≠ '?' ∧ ch ≠ '#') :
    sanitiseUrl p = some ⟨'/' :: interJoin ['/'] (normSegs false p.data)⟩ := by
  have ht1 : p.data.takeWhile (fun c => c != '?') = p.data :=
    takeWhile_all (fun c hc => by simp [(hfree c hc).2.1])
  have ht2 : p.data.takeWhile (fun c => c != '#') = p.data :=
    takeWhile_all (fun c hc => by simp [(hfree c hc).2.2])
  have hpct : '%' ∉ p.data := fun hm => (hfree _ hm).1 rfl
  simp only [sanitiseUrl, ht1, ht2, decodeChars_no_pct hpct, normalizeChars_abs habs]
  by_cases hjoin : interJoin ['/'] (normSegs false p.data) = []
  · rw [if_pos hjoin, hjoin]
    try decide
  · rw [if_neg hjoin]
    have hsegs_ne : normSegs false p.data ≠ [] := by
      rintro hh
      rw [hh] at hjoin
      exact hjoin rfl
    have hgood := normSegs_good p.data
    have hlast : (interJoin ['/'] (normSegs false p.data)).getLast? ≠ some '/' :=
      interJoin_getLast_ne hsegs_ne (fun s hs => ⟨(hgood s hs).1, (hgood s hs).2.2.2⟩)
    by_cases htr : p.data.getLast? = some '/'
    · rw [if_pos htr]
      rw [if_pos (show (('/' :: (interJoin ['/'] (normSegs false p.data) ++ ['/'])) :
        List Char).head? = some '/' from rfl)]
      have hconc : ('/' :: (interJoin ['/'] (normSegs false p.data) ++ ['/'])) =
          ('/' :: interJoin ['/'] (normSegs false p.data)) ++ ['/'] := by
        simp
      have hl2 : (('/' :: (interJoin ['/'] (normSegs false p.data) ++ ['/'])) :
          List Char).getLast? = some '/' := by
        rw [hconc, List.getLast?_concat]
      have hne1 : ('/' :: (interJoin ['/'] (normSegs false p.data) ++ ['/'])) ≠
          (['/'] : List Char) := by
        intro hcc
        have hlen := congrArg List.length hcc
        simp at hlen
      have hcond : (('/' :: (interJoin ['/'] (normSegs false p.data) ++ ['/'])) :
          List Char).getLast? = some '/' ∧
          ('/' :: (interJoin ['/'] (normSegs false p.data) ++ ['/'])) ≠
            (['/'] : List Char) := ⟨hl2, hne1⟩
      rw [if_pos hcond, hconc, List.dropLast_concat]
      try rw [if_neg (show ¬ (('/' :: interJoin ['/'] (normSegs false p.data)) :
        List Char) = [] by simp)]
    · rw [if_neg htr]
      rw [if_pos (show (('/' :: interJoin ['/'] (normSegs false p.data)) :
        List Char).head? = some '/' from rfl)]
      have hl2 : ¬ ((('/' :: interJoin ['/'] (normSegs false p.data)) :
          List Char).getLast? = some '/' ∧
          ('/' :: interJoin ['/'] (normSegs false p.data)) ≠ (['/'] : List Char)) := by
        rintro ⟨hc1, -⟩
        rw [show (('/' :: interJoin ['/'] (normSegs false p.data)) : List Char) =
          ['/'] ++ interJoin ['/'] (normSegs false p.data) from rfl,
          List.getLast?_append_of_ne_nil _ hjoin] at hc1
        exact hlast hc1
      rw [if_neg hl2]
      try rw [if_neg (show ¬ (('/' :: interJoin ['/'] (normSegs false p.data)) :
        List Char) = [] by simp)]

/-- The amended idempotence core: the sanitiser fixes its own output on
absolute, escape-free input. -/
theorem sanitiseUrl_idem {p q : String} (habs : p.data.head? = some '/')
    (hfree : ∀ ch ∈ p.data, ch ≠ '%' ∧ ch ≠ '?' ∧ ch ≠ '#')
    (hsan : sanitiseUrl p = some q) : sanitiseUrl q = some q := by
  have hcanon := sanitiseUrl_canonical habs hfree
  rw [hsan] at hcanon
  injection hcanon with hq
  subst hq
  have hgood := normSegs_good p.data
  have hfree' : ∀ ch ∈ ('/' :: interJoin ['/'] (normSegs false p.data) : List Char),
      ch ≠ '%' ∧ ch ≠ '?' ∧ ch ≠ '#' := by
    intro ch hch
    rcases List.mem_cons.mp hch with rfl | hch
    · exact ⟨by decide, by decide, by decide⟩
    · rcases interJoin_chars hch with rfl | ⟨s, hs, hcs⟩
      · exact ⟨by decide, by decide, by decide⟩
      · exact hfree ch (normSegs_chars_sub p.data s hs ch hcs)
  have h2 : sanitiseUrl ⟨'/' :: interJoin ['/'] (normSegs false p.data)⟩ =
      some ⟨'/' :: interJoin ['/']
        (normSegs false ('/' :: interJoin ['/'] (normSegs false p.data)))⟩ :=
    sanitiseUrl_canonical rfl hfree'
  rw [normSegs_roundtrip hgood] at h2
  exact h2

/-!
## Lemmas about the JS replace / split scans
-/

theorem prefix_of_isPrefixOf {α : Type} [BEq α] [LawfulBEq α] {l₁ l₂ : List α}
    (h : l₁.isPrefixOf l₂ = true) : l₁ <+: l₂ := by
  induction l₁ generalizing l₂ with
  | nil => exact List.nil_prefix
  | cons a l ih =>
    cases l₂ with
    | nil => simp at h
    | cons b l₂ =>
      rw [List.isPrefixOf_cons₂] at h
      simp only [Bool.and_eq_true, beq_iff_eq] at h
      exact List.cons_prefix_cons.mpr ⟨h.1, ih h.2⟩

theorem splitSeqF_ne_nil (pat : List Char) (fuel : Nat) (l : List Char) :
    splitSeqF pat fuel l ≠ [] := by
  cases fuel with
  | zero => cases l <;> simp [splitSeqF]
  | succ n =>
    cases l with
    | nil => simp [splitSeqF]
    | cons c rest =>
      rw [splitSeqF]
      by_cases h : pat ≠ [] ∧ pat.isPrefixOf (c :: rest)
      · rw [if_pos h]
        simp
      · rw [if_neg h]
        rcases hsp : splitSeqF pat n rest with _ | ⟨s, ss⟩ <;> simp [hsp]

theorem splitSeqF_dest (pat : List Char) (fuel : Nat) (l : List Char) :
    ∃ s ss, splitSeqF pat fuel l = s :: ss := by
  rcases h : splitSeqF pat fuel l with _ | ⟨s, ss⟩
  · exact absurd h (splitSeqF_ne_nil pat fuel l)
  · exact ⟨s, ss, rfl⟩

theorem interJoin_cons_head (rep : List Char) (c : Char) (s : List Char)
    (ss : List (List Char)) :
    interJoin rep ((c :: s) :: ss) = c :: interJoin rep (s :: ss) := by
  cases ss <;> rfl

/-- Rejoining the leftmost non-overlapping split with the pattern itself
reconstructs the subject. -/
theorem interJoin_splitSeqF {pat : List Char} (hp : pat ≠ []) :
    ∀ (fuel : Nat) (l : List Char), l.length ≤ fuel →
      interJoin pat (splitSeqF pat fuel l) = l := by
  intro fuel
  induction fuel with
  | zero =>
    intro l hl
    have hnil : l = [] := List.length_eq_zero.mp (Nat.le_zero.mp hl)
    subst hnil
    rfl
  | succ n ih =>
    intro l hl
    cases l with
    | nil => rfl
    | cons c rest =>
      rw [splitSeqF]
      by_cases h : pat ≠ [] ∧ pat.isPrefixOf (c :: rest)
      · rw [if_pos h]
        have hp1 : 0 < pat.length := List.length_pos.mpr hp
        have hlen : ((c :: rest).drop pat.length).length ≤ n := by
          rw [List.length_drop]
          simp only [List.length_cons] at hl ⊢
          omega
        obtain ⟨s, ss, hsp⟩ := splitSeqF_dest pat n ((c :: rest).drop pat.length)
        rw [hsp,
          show interJoin pat ([] :: s :: ss) = pat ++ interJoin pat (s :: ss) from rfl,
          ← hsp, ih _ hlen]
        obtain ⟨t, ht⟩ := prefix_of_isPrefixOf h.2
        rw [← ht, List.drop_left]
      · rw [if_neg h]
        have hlen : rest.length ≤ n := by
          simp only [List.length_cons] at hl
          omega
        obtain ⟨s, ss, hsp⟩ := splitSeqF_dest pat n rest
        rw [hsp, interJoin_cons_head, ← hsp, ih rest hlen]

/-- `GetSubstitution` is the identity on replacement text containing no
dollar character. -/
theorem getSubstitution_no_dollar {m b a : List Char} {l : List Char}
    (h : '$' ∉ l) : getSubstitution m b a l = l := by
  induction l with
  | nil => rfl
  | cons c rest ih =>
    have hc : ¬ c = '$' := fun hcc => h (by simp [hcc])
    have hr : '$' ∉ rest := fun hm => h (by simp [hm])
    rw [getSubstitution.eq_def]
    simp only [if_neg hc, ih hr]

/-- The replacement text consisting of a dollar and an ampersand expands to
exactly the matched text. -/
theorem getSubstitution_matched (m b a : List Char) :
    getSubstitution m b a ['$', '&'] = m := by
  rw [getSubstitution.eq_def]
  simp
  rfl

/-- When the `GetSubstitution` expansion of `rep` has the same value `r0` at
every position, `replaceAll` is exactly: split on every occurrence, rejoin
with `r0`. -/
theorem replCharsF_const {pat rep str r0 : List Char} (hp : pat ≠ [])
    (hsub : ∀ pos, getSubstitution pat (str.take pos)
      (str.drop (pos + pat.length)) rep = r0) :
    ∀ (fuel pos : Nat) (l : List Char), l.length ≤ fuel →
      replCharsF pat rep str fuel pos l = interJoin r0 (splitSeqF pat fuel l) := by
  intro fuel
  induction fuel with
  | zero =>
    intro pos l hl
    have hnil : l = [] := List.length_eq_zero.mp (Nat.le_zero.mp hl)
    subst hnil
    rfl
  | succ n ih =>
    intro pos l hl
    cases l with
    | nil => rfl
    | cons c rest =>
      rw [replCharsF, splitSeqF]
      by_cases h : pat ≠ [] ∧ pat.isPrefixOf (c :: rest)
      · rw [if_pos h, if_pos h, hsub pos]
        have hp1 : 0 < pat.length := List.length_pos.mpr hp
        have hlen : ((c :: rest).drop pat.length).length ≤ n := by
          rw [List.length_drop]
          simp only [List.length_cons] at hl ⊢
          omega
        obtain ⟨s, ss, hsp⟩ := splitSeqF_dest pat n ((c :: rest).drop pat.length)
        rw [hsp,
          show interJoin r0 ([] :: s :: ss) = r0 ++ interJoin r0 (s :: ss) from rfl,
          ← hsp, ih _ _ hlen]
      · rw [if_neg h, if_neg h]
        have hlen : rest.length ≤ n := by
          simp only [List.length_cons] at hl
          omega
        obtain ⟨s, ss, hsp⟩ := splitSeqF_dest pat n rest
        rw [hsp, interJoin_cons_head, ← hsp, ih _ rest hlen]

/-- Legacy `replace` rewrites only the first split component (stated for
dollar-free replacement text, where `GetSubstitution` is the identity). -/
theorem replFirstChars_eq {pat rep str : List Char} (hp : pat ≠ [])
    (hd : '$' ∉ rep) :
    ∀ (fuel pos : Nat) (l : List Char), l.length ≤ fuel →
      replFirstChars pat rep str pos l = (match splitSeqF pat fuel l with
        | [] => l
        | [_] => l
        | x :: xs => x ++ rep ++ interJoin pat xs) := by
  intro fuel
  induction fuel with
  | zero =>
    intro pos l hl
    have hnil : l = [] := List.length_eq_zero.mp (Nat.le_zero.mp hl)
    subst hnil
    rfl
  | succ n ih =>
    intro pos l hl
    cases l with
    | nil => rfl
    | cons c rest =>
      rw [replFirstChars, splitSeqF]
      by_cases h : pat.isPrefixOf (c :: rest)
      · rw [if_pos h, if_pos ⟨hp, h⟩, getSubstitution_no_dollar hd]
        have hp1 : 0 < pat.length := List.length_pos.mpr hp
        have hlen : ((c :: rest).drop pat.length).length ≤ n := by
          rw [List.length_drop]
          simp only [List.length_cons] at hl ⊢
          omega
        obtain ⟨s, ss, hsp⟩ := splitSeqF_dest pat n ((c :: rest).drop pat.length)
        rw [hsp]
        show rep ++ (c :: rest).drop pat.length = rep ++ interJoin pat (s :: ss)
        rw [← hsp, interJoin_splitSeqF hp n _ hlen]
      · have h2 : ¬(pat ≠ [] ∧ pat.isPrefixOf (c :: rest)) := fun hh => h hh.2
        rw [if_neg h, if_neg h2]
        have hlen : rest.length ≤ n := by
          simp only [List.length_cons] at hl
          omega
        obtain ⟨s, ss, hsp⟩ := splitSeqF_dest pat n rest
        rw [ih _ rest hlen, hsp]
        cases ss with
        | nil => rfl
        | cons s2 ss2 => rfl

theorem data_ne_nil {s : String} (h : s ≠ "") : s.data ≠ [] := by
  intro hd
  apply h
  rcases s with ⟨l⟩
  have hl : l = [] := hd
  subst hl
  rfl

/-!
## Lemmas about the cache and `buildPage`
-/

theorem cacheSet_self (c : Cache) (k : String) (v : CacheEntry) :
    cacheSet c k v k = some v := by
  simp [cacheSet]

theorem cacheSetL_self (c : CacheL) (k : String) (v : CacheEntryL) :
    cacheSetL c k v k = some v := by
  simp [cacheSetL]

theorem buildPage_hit {env : Env} {fs : FS} {cache : Cache} {route filePath md : String}
    {cached : CacheEntry} (hread : fs.readFileSync filePath = some md)
    (hc : cache route = some cached) (hh : cached.hash = env.hash md) :
    buildPage env fs cache route filePath = some (cached, cache, false) := by
  simp only [buildPage, hread, hc]
  rw [if_pos hh]

theorem buildPageLegacy_hit {env : Env} {fs : FS} {cache : CacheL}
    {route filePath md : String} {cached : CacheEntryL}
    (hread : fs.readFileSync filePath = some md)
    (hc : cache route = some cached) (hh : cached.hash = env.hash md) :
    buildPageLegacy env fs cache route filePath = some (cached.html, cache, false) := by
  simp only [buildPageLegacy, hread, hc]
  rw [if_pos hh]

theorem buildPage_read {env : Env} {fs : FS} {cache : Cache} {route filePath : String}
    {x : CacheEntry × Cache × Bool}
    (h : buildPage env fs cache route filePath = some x) :
    ∃ md, fs.readFileSync filePath = some md := by
  rcases hr : fs.readFileSync filePath with _ | md
  · simp only [buildPage, hr] at h
    exact Option.noConfusion h
  · exact ⟨md, rfl⟩

theorem buildPage_post {env : Env} {fs : FS} {cache : Cache}
    {route filePath md : String} {e : CacheEntry} {c' : Cache} {r : Bool}
    (hread : fs.readFileSync filePath = some md)
    (h : buildPage env fs cache route filePath = some (e, c', r)) :
    e.hash = env.hash md ∧ c' route = some e := by
  simp only [buildPage, hread] at h
  split at h
  · next cached hc =>
    split at h
    · next hh =>
      injection h with h2
      simp only [Prod.mk.injEq] at h2
      obtain ⟨rfl, rfl, rfl⟩ := h2
      exact ⟨hh, hc⟩
    · injection h with h2
      simp only [renderPage, Prod.mk.injEq] at h2
      obtain ⟨rfl, rfl, rfl⟩ := h2
      exact ⟨rfl, cacheSet_self _ _ _⟩
  · injection h with h2
    simp only [renderPage, Prod.mk.injEq] at h2
    obtain ⟨rfl, rfl, rfl⟩ := h2
    exact ⟨rfl, cacheSet_self _ _ _⟩

theorem buildPage_miss {env : Env} {fs : FS} {cache : Cache}
    {route filePath md : String} {e : CacheEntry} {c' : Cache} {r : Bool}
    (hread : fs.readFileSync filePath = some md)
    (hmiss : cache route = none ∨ ∃ old, cache route = some old ∧ old.hash ≠ env.hash md)
    (h : buildPage env fs cache route filePath = some (e, c', r)) :
    e = ⟨env.hash md,
        renderTemplate env fs (titleOf route) (env.sanitizePage (env.markedParse md)),
        "\"" ++ env.hash (renderTemplate env fs (titleOf route)
          (env.sanitizePage (env.markedParse md))) ++ "\""⟩ ∧
      c' = cacheSet cache route e ∧ r = true := by
  simp only [buildPage, hread] at h
  rcases hmiss with hnone | ⟨old, hold, hne⟩
  · rw [hnone] at h
    injection h with h2
    simp only [renderPage, Prod.mk.injEq] at h2
    obtain ⟨rfl, rfl, rfl⟩ := h2
    exact ⟨rfl, rfl, rfl⟩
  · simp only [hold] at h
    rw [if_neg hne] at h
    injection h with h2
    simp only [renderPage, Prod.mk.injEq] at h2
    obtain ⟨rfl, rfl, rfl⟩ := h2
    exact ⟨rfl, rfl, rfl⟩

theorem buildPageLegacy_post {env : Env} {fs : FS} {cache : CacheL}
    {route filePath md : String} {html : String} {c' : CacheL} {r : Bool}
    (hread : fs.readFileSync filePath = some md)
    (h : buildPageLegacy env fs cache route filePath = some (html, c', r)) :
    c' route = some ⟨env.hash md, html⟩ := by
  simp only [buildPageLegacy, hread] at h
  split at h
  · next cached hc =>
    split at h
    · next hh =>
      injection h with h2
      simp only [Prod.mk.injEq] at h2
      obtain ⟨rfl, rfl, rfl⟩ := h2
      rw [hc, ← hh]
    · injection h with h2
      simp only [renderPageLegacy, Prod.mk.injEq] at h2
      obtain ⟨rfl, rfl, rfl⟩ := h2
      exact cacheSetL_self _ _ _
  · injection h with h2
    simp only [renderPageLegacy, Prod.mk.injEq] at h2
    obtain ⟨rfl, rfl, rfl⟩ := h2
    exact cacheSetL_self _ _ _

theorem buildPageLegacy_miss {env : Env} {fs : FS} {cache : CacheL}
    {route filePath md : String} {html : String} {c' : CacheL} {r : Bool}
    (hread : fs.readFileSync filePath = some md)
    (hmiss : cache route = none ∨ ∃ old, cache route = some old ∧ old.hash ≠ env.hash md)
    (h : buildPageLegacy env fs cache route filePath = some (html, c', r)) :
    html = renderTemplateLegacy env (titleOf route) (env.markedParse md) ∧
      c' = cacheSetL cache route ⟨env.hash md, html⟩ ∧ r = true := by
  simp only [buildPageLegacy, hread] at h
  rcases hmiss with hnone | ⟨old, hold, hne⟩
  · rw [hnone] at h
    injection h with h2
    simp only [renderPageLegacy, Prod.mk.injEq] at h2
    obtain ⟨rfl, rfl, rfl⟩ := h2
    exact ⟨rfl, rfl, rfl⟩
  · simp only [hold] at h
    rw [if_neg hne] at h
    injection h with h2
    simp only [renderPageLegacy, Prod.mk.injEq] at h2
    obtain ⟨rfl, rfl, rfl⟩ := h2
    exact ⟨rfl, rfl, rfl⟩

/-!
## Handler construction and inversion lemmas
-/

theorem handle_200 {env : Env} {fs : FS} {cache : Cache} {req : Request}
    {cleanPath filePath : String} {page : CacheEntry} {c' : Cache} {r : Bool}
    (hm : req.method = "GET")
    (hs : sanitiseUrl req.url = some cleanPath)
    (hr : routeToFile env.pagesDir cleanPath = some filePath)
    (he : fs.existsSync filePath = true)
    (hb : buildPage env fs cache cleanPath filePath = some (page, c', r))
    (hinm : ¬ req.ifNoneMatch = some page.etag) :
    handle env fs cache req = (⟨200, page.html, some filePath, r⟩, c') := by
  have hc0 : ¬ cleanPath = "" := sanitiseUrl_ne_empty hs
  have hf0 : ¬ filePath = "" := routeToFile_ne_empty hr
  simp only [handle, hm, hs, hr, he, hb]
  rw [if_neg (by simp), if_neg hc0, if_neg hf0, if_neg (by simp), if_neg hinm]

theorem handle_304 {env : Env} {fs : FS} {cache : Cache} {req : Request}
    {cleanPath filePath : String} {page : CacheEntry} {c' : Cache} {r : Bool}
    (hm : req.method = "GET")
    (hs : sanitiseUrl req.url = some cleanPath)
    (hr : routeToFile env.pagesDir cleanPath = some filePath)
    (he : fs.existsSync filePath = true)
    (hb : buildPage env fs cache cleanPath filePath = some (page, c', r))
    (hinm : req.ifNoneMatch = some page.etag) :
    handle env fs cache req = (⟨304, "", some filePath, r⟩, c') := by
  have hc0 : ¬ cleanPath = "" := sanitiseUrl_ne_empty hs
  have hf0 : ¬ filePath = "" := routeToFile_ne_empty hr
  simp only [handle, hm, hs, hr, he, hb]
  rw [if_neg (by simp), if_neg hc0, if_neg hf0, if_neg (by simp), if_pos hinm]

theorem handle_200_inv {env : Env} {fs : FS} {cache : Cache} {req : Request}
    {res : Response} {c1 : Cache}
    (h : handle env fs cache req = (res, c1)) (hst : res.status = 200) :
    ∃ cleanPath filePath page r,
      req.method = "GET" ∧
      sanitiseUrl req.url = some cleanPath ∧
      routeToFile env.pagesDir cleanPath = some filePath ∧
      fs.existsSync filePath = true ∧
      buildPage env fs cache cleanPath filePath = some (page, c1, r) ∧
      ¬ req.ifNoneMatch = some page.etag ∧
      res = ⟨200, page.html, some filePath, r⟩ := by
  simp only [handle] at h
  split at h
  · injection h with h1 h2
    rw [← h1] at hst
    simp at hst
  · next hm =>
    split at h
    · injection h with h1 h2
      rw [← h1] at hst
      simp at hst
    · next cleanPath hs =>
      split at h
      · injection h with h1 h2
        rw [← h1] at hst
        simp at hst
      · next hc0 =>
        split at h
        · injection h with h1 h2
          rw [← h1] at hst
          simp at hst
        · next filePath hr =>
          split at h
          · injection h with h1 h2
            rw [← h1] at hst
            simp at hst
          · next hf0 =>
            split at h
            · injection h with h1 h2
              rw [← h1] at hst
              simp at hst
            · next hex =>
              split at h
              · injection h with h1 h2
                rw [← h1] at hst
                simp at hst
              · next page cache' r hb =>
                split at h
                · injection h with h1 h2
                  rw [← h1] at hst
                  simp at hst
                · next hinm =>
                  injection h with h1 h2
                  subst h2
                  exact ⟨cleanPath, filePath, page, r, not_not.mp hm, hs, hr,
                    Bool.not_eq_false _ ▸ Bool.of_not_eq_false hex, hb, hinm, h1.symm⟩

/-!
## The claims
-/

/-- C1 (counterexample): as stated — "every raw request URL containing `../`
(plain or percent-encoded) is answered with 403 or 404 and never resolves to
a file outside the content root" — the claim fails on the code.  The legacy
variant's string-prefix containment check accepts the sibling directory
`pages-evil`: the raw URL `../pages-evil/x` (which contains `../`) is served
with 200 from `/srv/markd/pages-evil/x.md`, a file outside the content root.
Moreover even the hardened variant answers 200, not 403/404, for the
`../`-containing URL `/a/../b`, whose normalization lands back inside the
root. -/
theorem c1_counterexample :
    hasSub "../".data "../pages-evil/x".data = true ∧
    (handleLegacy envH fsA emptyCacheL ⟨"GET", "../pages-evil/x", none⟩).1.status = 200 ∧
    (handleLegacy envH fsA emptyCacheL ⟨"GET", "../pages-evil/x", none⟩).1.servedFile =
      some "/srv/markd/pages-evil/x.md" ∧
    isWithin envH.pagesDir "/srv/markd/pages-evil/x.md" = false ∧
    hasSub "../".data "/a/../b".data = true ∧
    (handle envH fsA emptyCache ⟨"GET", "/a/../b", none⟩).1.status = 200 :=
  ⟨by decide, by decide, by decide, by decide, by decide, by decide⟩

/-- C1 (amended): with a canonical absolute content root, the hardened
variant never resolves to — and hence never serves — a file outside the
content root, for every raw request URL (in particular for every URL
containing `../`, plain or percent-encoded; such URLs are answered with 400,
403, 404 or a 200/304 of a file inside the root).  The legacy variant's
string-prefix check does not guarantee this for raw URLs that do not begin
with `/`. -/
theorem c1_root_containment :
    ∀ (env : Env) (fs : FS) (cache : Cache) (req : Request),
      goodDir env.pagesDir →
      (∀ f, ((handle env fs cache req).1).servedFile = some f →
        isWithin env.pagesDir f = true) ∧
      (∀ c f, routeToFile env.pagesDir c = some f → isWithin env.pagesDir f = true) := by
  intro env fs cache req hd
  refine ⟨fun f hf => ?_, fun c f hr => routeToFile_within hd hr⟩
  obtain ⟨c, hs, hr⟩ := handle_servedFile hf
  exact routeToFile_within hd hr

/-- C1 (witness): the containment theorem applied at the concrete root
`/srv/markd/pages` and route `/b`. -/
theorem c1_witness : isWithin envH.pagesDir "/srv/markd/pages/b.md" = true :=
  (c1_root_containment envH fsA emptyCache ⟨"GET", "/b", none⟩
      (by unfold goodDir; decide)).2
    "/b" "/srv/markd/pages/b.md" (by decide)

/-- C2: when a cached entry's stored hash equals the hash of the source
file's current bytes, `buildPage` (both variants) returns the cached page
unchanged, stores nothing, and performs no markdown conversion, no
sanitisation and no template substitution (the render instrumentation flag
is `false`); consequently re-requesting an unchanged document through the
hardened handler returns a byte-identical response with no second render
and an unchanged cache. -/
theorem c2_cache_hit :
    (∀ (env : Env) (fs : FS) (cache : Cache) (route filePath md : String)
        (cached : CacheEntry),
      fs.readFileSync filePath = some md →
      cache route = some cached →
      cached.hash = env.hash md →
      buildPage env fs cache route filePath = some (cached, cache, false)) ∧
    (∀ (env : Env) (fs : FS) (cache : CacheL) (route filePath md : String)
        (cached : CacheEntryL),
      fs.readFileSync filePath = some md →
      cache route = some cached →
      cached.hash = env.hash md →
      buildPageLegacy env fs cache route filePath = some (cached.html, cache, false)) ∧
    (∀ (env : Env) (fs : FS) (cache : Cache) (req : Request) (res1 : Response)
        (c1 : Cache),
      handle env fs cache req = (res1, c1) →
      res1.status = 200 →
      handle env fs c1 req = ({ res1 with rendered := false }, c1)) := by
  refine ⟨fun env fs cache route filePath md cached hread hc hh =>
      buildPage_hit hread hc hh,
    fun env fs cache route filePath md cached hread hc hh =>
      buildPageLegacy_hit hread hc hh,
    fun env fs cache req res1 c1 h hst => ?_⟩
  obtain ⟨cleanPath, filePath, page, r, hm, hs, hr, he, hb, hinm, hres⟩ :=
    handle_200_inv h hst
  obtain ⟨md, hread⟩ := buildPage_read hb
  obtain ⟨hhash, hc1⟩ := buildPage_post hread hb
  have hb2 : buildPage env fs c1 cleanPath filePath = some (page, c1, false) :=
    buildPage_hit hread hc1 hhash
  have h2 := handle_200 hm hs hr he hb2 hinm
  rw [h2, hres]

/-- C2 (witness): the hit behaviour at a concrete cache whose stored hash
matches the on-disk bytes. -/
theorem c2_witness :
    buildPage envH fsA cacheB "/b" "/srv/markd/pages/b.md" =
      some (entryB, cacheB, false) :=
  c2_cache_hit.1 envH fsA cacheB "/b" "/srv/markd/pages/b.md" "B" entryB
    (by decide) (by decide) (by decide)

/-- C3: after every successful `buildPage` (both variants) the entry stored
under the route carries exactly the hash of the bytes read during that
request; and on a hash mismatch the prior entry is replaced wholesale by a
freshly built entry — every field newly computed — via a single
`pageCache.set`, never patched in place. -/
theorem c3_cache_entry_fresh :
    (∀ (env : Env) (fs : FS) (cache : Cache) (route filePath md : String)
        (e : CacheEntry) (c' : Cache) (r : Bool),
      fs.readFileSync filePath = some md →
      buildPage env fs cache route filePath = some (e, c', r) →
      e.hash = env.hash md ∧ c' route = some e ∧
      (∀ old, cache route = some old → old.hash ≠ env.hash md →
        e = ⟨env.hash md,
            renderTemplate env fs (titleOf route) (env.sanitizePage (env.markedParse md)),
            "\"" ++ env.hash (renderTemplate env fs (titleOf route)
              (env.sanitizePage (env.markedParse md))) ++ "\""⟩ ∧
        c' = cacheSet cache route e)) ∧
    (∀ (env : Env) (fs : FS) (cache : CacheL) (route filePath md html : String)
        (c' : CacheL) (r : Bool),
      fs.readFileSync filePath = some md →
      buildPageLegacy env fs cache route filePath = some (html, c', r) →
      c' route = some ⟨env.hash md, html⟩ ∧
      (∀ old, cache route = some old → old.hash ≠ env.hash md →
        html = renderTemplateLegacy env (titleOf route) (env.markedParse md) ∧
        c' = cacheSetL cache route ⟨env.hash md, html⟩)) := by
  constructor
  · intro env fs cache route filePath md e c' r hread h
    obtain ⟨h1, h2⟩ := buildPage_post hread h
    refine ⟨h1, h2, fun old hold hne => ?_⟩
    obtain ⟨he, hc, _⟩ := buildPage_miss hread (Or.inr ⟨old, hold, hne⟩) h
    exact ⟨he, hc⟩
  · intro env fs cache route filePath md html c' r hread h
    refine ⟨buildPageLegacy_post hread h, fun old hold hne => ?_⟩
    obtain ⟨hh, hc, _⟩ := buildPageLegacy_miss hread (Or.inr ⟨old, hold, hne⟩) h
    exact ⟨hh, hc⟩

/-- C3 (witness): the invariant at a concrete first render of `/b`. -/
theorem c3_witness :
    entryB2.hash = envH.hash "B" ∧ cacheB2 "/b" = some entryB2 :=
  have h := (c3_cache_entry_fresh.1 envH fsA emptyCache "/b"
    "/srv/markd/pages/b.md" "B" entryB2 cacheB2 true (by decide) (by rfl))
  ⟨h.1, h.2.1⟩

/-- C4: in the hardened variant, whenever a GET request reaches the render
stage, an `If-None-Match` header byte-for-byte equal to the page's stored
quoted ETag yields 304 with an empty body, and an absent or in any byte
different header yields 200 with the full rendered HTML body. -/
theorem c4_conditional_get :
    ∀ (env : Env) (fs : FS) (cache : Cache) (req : Request)
      (cleanPath filePath : String) (page : CacheEntry) (c' : Cache) (r : Bool),
      req.method = "GET" →
      sanitiseUrl req.url = some cleanPath →
      routeToFile env.pagesDir cleanPath = some filePath →
      fs.existsSync filePath = true →
      buildPage env fs cache cleanPath filePath = some (page, c', r) →
      (req.ifNoneMatch = some page.etag →
        handle env fs cache req = (⟨304, "", some filePath, r⟩, c')) ∧
      (req.ifNoneMatch ≠ some page.etag →
        handle env fs cache req = (⟨200, page.html, some filePath, r⟩, c')) :=
  fun _ _ _ _ _ _ _ _ _ hm hs hr he hb =>
    ⟨fun hinm => handle_304 hm hs hr he hb hinm,
     fun hinm => handle_200 hm hs hr he hb hinm⟩

/-- C4 (witness): a matching `If-None-Match` gets 304 with empty body, a
missing one gets 200 with the cached HTML, at a concrete cache. -/
theorem c4_witness :
    handle envH fsA cacheB ⟨"GET", "/b", some "\"etag-b\""⟩ =
      (⟨304, "", some "/srv/markd/pages/b.md", false⟩, cacheB) ∧
    handle envH fsA cacheB ⟨"GET", "/b", none⟩ =
      (⟨200, "cached-html", some "/srv/markd/pages/b.md", false⟩, cacheB) :=
  ⟨(c4_conditional_get envH fsA cacheB ⟨"GET", "/b", some "\"etag-b\""⟩ "/b"
      "/srv/markd/pages/b.md" entryB cacheB false rfl (by decide) (by decide)
      (by decide) (by rfl)).1 (by decide),
   (c4_conditional_get envH fsA cacheB ⟨"GET", "/b", none⟩ "/b"
      "/srv/markd/pages/b.md" entryB cacheB false rfl (by decide) (by decide)
      (by decide) (by rfl)).2 (by decide)⟩

/-- C5: the handlers evaluate their guards in strict short-circuit order,
mapping each failure to exactly one terminal status — non-GET method → 405
(legacy: non-GET/POST), sanitizer `null` → 400, resolver `null` → 403,
missing file → 404, read failure during render → 500 — and every request
receives one of the finitely many terminal responses (no error escapes the
handler). -/
theorem c5_guard_cascade :
    (∀ (env : Env) (fs : FS) (cache : Cache) (req : Request),
      req.method ≠ "GET" →
      handle env fs cache req = (⟨405, "Method Not Allowed", none, false⟩, cache)) ∧
    (∀ (env : Env) (fs : FS) (cache : Cache) (req : Request),
      req.method = "GET" → sanitiseUrl req.url = none →
      handle env fs cache req = (⟨400, "Bad Request", none, false⟩, cache)) ∧
    (∀ (env : Env) (fs : FS) (cache : Cache) (req : Request) (c : String),
      req.method = "GET" → sanitiseUrl req.url = some c →
      routeToFile env.pagesDir c = none →
      handle env fs cache req = (⟨403, "Forbidden", none, false⟩, cache)) ∧
    (∀ (env : Env) (fs : FS) (cache : Cache) (req : Request) (c fp : String),
      req.method = "GET" → sanitiseUrl req.url = some c →
      routeToFile env.pagesDir c = some fp → fs.existsSync fp = false →
      handle env fs cache req = (⟨404, "Not Found", none, false⟩, cache)) ∧
    (∀ (env : Env) (fs : FS) (cache : Cache) (req : Request) (c fp : String),
      req.method = "GET" → sanitiseUrl req.url = some c →
      routeToFile env.pagesDir c = some fp → fs.existsSync fp = true →
      buildPage env fs cache c fp = none →
      handle env fs cache req = (⟨500, "Internal Server Error", none, false⟩, cache)) ∧
    (∀ (env : Env) (fs : FS) (cache : Cache) (req : Request),
      (handle env fs cache req).1.status ∈ ([405, 400, 403, 404, 500, 304, 200] : List Nat)) ∧
    (∀ (env : Env) (fs : FS) (cache : CacheL) (req : Request),
      req.method ≠ "GET" → req.method ≠ "POST" →
      handleLegacy env fs cache req = (⟨405, "Method Not Allowed", none, false⟩, cache)) ∧
    (∀ (env : Env) (fs : FS) (cache : CacheL) (req : Request),
      (handleLegacy env fs cache req).1.status ∈ ([405, 400, 403, 404, 500, 200] : List Nat)) := by
  refine ⟨?_, ?_, ?_, ?_, ?_, ?_, ?_, ?_⟩
  · intro env fs cache req hm
    simp only [handle]
    rw [if_pos hm]
  · intro env fs cache req hm hs
    simp only [handle, hs]
    rw [if_neg (not_not_intro hm)]
  · intro env fs cache req c hm hs hr
    simp only [handle, hs, hr]
    rw [if_neg (not_not_intro hm), if_neg (sanitiseUrl_ne_empty hs)]
  · intro env fs cache req c fp hm hs hr he
    simp only [handle, hs, hr]
    rw [if_neg (not_not_intro hm), if_neg (sanitiseUrl_ne_empty hs),
      if_neg (routeToFile_ne_empty hr), if_pos he]
  · intro env fs cache req c fp hm hs hr he hb
    simp only [handle, hs, hr, hb]
    rw [if_neg (not_not_intro hm), if_neg (sanitiseUrl_ne_empty hs),
      if_neg (routeToFile_ne_empty hr), if_neg (by simp [he])]
  · intro env fs cache req
    simp only [handle]
    split
    · simp
    · split
      · simp
      · split
        · simp
        · split
          · simp
          · split
            · simp
            · split
              · simp
              · split
                · simp
                · split <;> simp
  · intro env fs cache req hm hp
    simp only [handleLegacy]
    rw [if_pos ⟨hm, hp⟩]
  · intro env fs cache req
    simp only [handleLegacy]
    split
    · simp
    · split
      · simp
      · split
        · simp
        · split
          · simp
          · split
            · simp
            · split
              · simp
              · split <;> simp

/-- C5 (witness): each terminal status at a concrete request. -/
theorem c5_witness :
    handle envH fsA emptyCache ⟨"PUT", "/b", none⟩ =
      (⟨405, "Method Not Allowed", none, false⟩, emptyCache) ∧
    handle envH fsA emptyCache ⟨"GET", "/%zz", none⟩ =
      (⟨400, "Bad Request", none, false⟩, emptyCache) ∧
    handle envH fsA emptyCache ⟨"GET", "../x", none⟩ =
      (⟨403, "Forbidden", none, false⟩, emptyCache) ∧
    handle envH fsA emptyCache ⟨"GET", "/missing", none⟩ =
      (⟨404, "Not Found", none, false⟩, emptyCache) ∧
    handle envH fsErr emptyCache ⟨"GET", "/b", none⟩ =
      (⟨500, "Internal Server Error", none, false⟩, emptyCache) :=
  ⟨c5_guard_cascade.1 envH fsA emptyCache ⟨"PUT", "/b", none⟩ (by decide),
   c5_guard_cascade.2.1 envH fsA emptyCache ⟨"GET", "/%zz", none⟩ rfl (by decide),
   c5_guard_cascade.2.2.1 envH fsA emptyCache ⟨"GET", "../x", none⟩ "/../x" rfl
     (by decide) (by decide),
   c5_guard_cascade.2.2.2.1 envH fsA emptyCache ⟨"GET", "/missing", none⟩ "/missing"
     "/srv/markd/pages/missing.md" rfl (by decide) (by decide) (by decide),
   c5_guard_cascade.2.2.2.2.1 envH fsErr emptyCache ⟨"GET", "/b", none⟩ "/b"
     "/srv/markd/pages/b.md" rfl (by decide) (by decide) (by decide) (by rfl)⟩

/-- C8: in the hardened variant, every page built on a cache miss stores an
ETag equal to the hash of the fully rendered, template-wrapped HTML — not of
the markdown source — enclosed in double quotes. -/
theorem c8_etag_of_rendered_html :
    ∀ (env : Env) (fs : FS) (cache : Cache) (route filePath md : String)
      (e : CacheEntry) (c' : Cache) (r : Bool),
      fs.readFileSync filePath = some md →
      (cache route = none ∨ ∃ old, cache route = some old ∧ old.hash ≠ env.hash md) →
      buildPage env fs cache route filePath = some (e, c', r) →
      e.html = renderTemplate env fs (titleOf route)
        (env.sanitizePage (env.markedParse md)) ∧
      e.etag = "\"" ++ env.hash e.html ++ "\"" ∧ r = true := by
  intro env fs cache route filePath md e c' r hread hmiss h
  obtain ⟨he, _, hr⟩ := buildPage_miss hread hmiss h
  subst he
  exact ⟨rfl, rfl, hr⟩

/-- C8 (witness): the ETag of the concrete first render of `/b` is the
quoted hash of its rendered HTML. -/
theorem c8_witness :
    entryB2.html = renderTemplate envH fsA (titleOf "/b")
      (envH.sanitizePage (envH.markedParse "B")) ∧
    entryB2.etag = "\"" ++ envH.hash entryB2.html ++ "\"" :=
  have h := c8_etag_of_rendered_html envH fsA emptyCache "/b"
    "/srv/markd/pages/b.md" "B" entryB2 cacheB2 true (by decide)
    (Or.inl (by decide)) (by rfl)
  ⟨h.1, h.2.1⟩

/-- C10: cache validity depends only on the source document's hash: if the
source file's bytes are unchanged, a second `buildPage` over an arbitrarily
changed filesystem — in particular one whose `nav.md` changed — returns the
byte-identical cached entry without invoking the renderer, so the embedded
navigation block is not rebuilt. -/
theorem c10_nav_not_rebuilt_on_hit :
    ∀ (env : Env) (fs1 fs2 : FS) (cache : Cache) (route filePath md : String)
      (e : CacheEntry) (c1 : Cache) (r : Bool),
      fs1.readFileSync filePath = some md →
      fs2.readFileSync filePath = some md →
      buildPage env fs1 cache route filePath = some (e, c1, r) →
      buildPage env fs2 c1 route filePath = some (e, c1, false) := by
  intro env fs1 fs2 cache route filePath md e c1 r hread1 hread2 h
  obtain ⟨hh, hc⟩ := buildPage_post hread1 h
  exact buildPage_hit hread2 hc hh

/-- C10 (witness): changing only `nav.md` (absent in `fsA`, present in
`fsB`) between two requests leaves the served entry byte-identical and
unrendered. -/
theorem c10_witness :
    fsA.readFileSync envH.navPath ≠ fsB.readFileSync envH.navPath ∧
    buildPage envH fsB cacheB2 "/b" "/srv/markd/pages/b.md" =
      some (entryB2, cacheB2, false) :=
  ⟨by decide,
   c10_nav_not_rebuilt_on_hit envH fsA fsB emptyCache "/b" "/srv/markd/pages/b.md"
     "B" entryB2 cacheB2 true (by decide) (by decide) (by rfl)⟩

/-- C6 (counterexample): the sanitiser is not idempotent.  The input `..`
survives the first pass (`sanitiseUrl ".." = some "/.."`), but a second
application maps `/..` to `/`, so `sanitize (sanitize "..") ≠
sanitize ".."`. -/
theorem c6_counterexample :
    sanitiseUrl ".." = some "/.." ∧
    (sanitiseUrl "..").bind sanitiseUrl = some "/" ∧
    (sanitiseUrl "..").bind sanitiseUrl ≠ sanitiseUrl ".." :=
  ⟨by decide, by decide, by decide⟩

/-- C6 (amended): the sanitiser is idempotent on every input that begins
with `/` and contains no `%`, `?` or `#` character: for such `p`, if
`sanitiseUrl p = some q` then `sanitiseUrl q = some q`.  (Relative inputs
can retain `..` segments which a second pass collapses, and decoding is not
idempotent on inputs containing `%`; stripping at `?`/`#` is likewise not
idempotent when the decoded output regains those characters.) -/
theorem c6_idempotent_on_absolute :
    ∀ (p q : String), p.data.head? = some '/' →
      (∀ ch ∈ p.data, ch ≠ '%' ∧ ch ≠ '?' ∧ ch ≠ '#') →
      sanitiseUrl p = some q → sanitiseUrl q = some q :=
  fun _ _ habs hfree hsan => sanitiseUrl_idem habs hfree hsan

/-- C6 (witness): idempotence at the concrete input `/a/b/`. -/
theorem c6_witness :
    (sanitiseUrl "/a/b/").bind sanitiseUrl = sanitiseUrl "/a/b/" := by
  have h := c6_idempotent_on_absolute "/a/b/" "/a/b" (by decide) (by decide) (by decide)
  rw [show sanitiseUrl "/a/b/" = some "/a/b" from by decide]
  exact h

/-- C7 (counterexample): `sanitiseUrl ""` is `"/."`, not `"/"`:
`path.posix.normalize("")` returns `"."`, the leading slash is then
prepended, and the final empty-string-to-`/` branch never fires. -/
theorem c7_counterexample :
    sanitiseUrl "" = some "/." ∧ sanitiseUrl "" ≠ some "/" :=
  ⟨by decide, by decide⟩

/-- C7 (amended): trailing-slash canonicalization holds —
`sanitiseUrl "/a/b/" = sanitiseUrl "/a/b"` — but the empty path maps to
`"/."` (the `clean === ""` branch in the source is unreachable), not to
`"/"`. -/
theorem c7_trailing_slash_and_empty :
    sanitiseUrl "/a/b/" = sanitiseUrl "/a/b" ∧ sanitiseUrl "" = some "/." :=
  ⟨by decide, by decide⟩

/-- C9 (counterexample): template substitution is not global in the legacy
variant: with a template containing the title token twice, the legacy
renderer leaves the second occurrence unreplaced in the output (and the
leftover token comes from the template, not from the substituted values). -/
theorem c9_counterexample :
    renderTemplateLegacy envT "T" "C" = "T|" ++ titleTok ∧
    hasSub titleTok.data (renderTemplateLegacy envT "T" "C").data = true ∧
    hasSub titleTok.data ("T" : String).data = false ∧
    hasSub titleTok.data ("C" : String).data = false :=
  ⟨by decide, by decide, by decide, by decide⟩

/-- C9 (amended): in the hardened variant each substitution step is global.
Replacement strings undergo the JS `GetSubstitution` dollar-escape
expansion at every match; for replacement text free of the dollar character
that expansion is the identity, and `replaceAll` then equals splitting the
subject at every (leftmost, non-overlapping) occurrence of the token and
rejoining with the replacement.  Unconditionally, replacing every
occurrence by the dollar-ampersand escape — which re-inserts the matched
token — leaves the subject unchanged, so every occurrence really is
visited.  The legacy variant's `replace` rewrites only the first
occurrence, leaving the remainder of the split rejoined with the token
itself; the two `renderTemplate` variants are exactly chains of these
substitutions over the six (resp. five) placeholder tokens. -/
theorem c9_substitution_characterization :
    (∀ (s pat rep : String), pat ≠ "" → '$' ∉ rep.data →
      jsReplaceAll s pat rep = ⟨interJoin rep.data (splitSeq pat.data s.data)⟩) ∧
    (∀ (s pat : String), pat ≠ "" → jsReplaceAll s pat "$&" = s) ∧
    (∀ (s pat rep : String), pat ≠ "" → '$' ∉ rep.data →
      jsReplaceFirst s pat rep = ⟨(match splitSeq pat.data s.data with
        | [] => s.data
        | [_] => s.data
        | x :: xs => x ++ rep.data ++ interJoin pat.data xs)⟩) ∧
    (∀ (env : Env) (fs : FS) (title content : String),
      renderTemplate env fs title content =
        jsReplaceAll (jsReplaceAll (jsReplaceAll (jsReplaceAll (jsReplaceAll
          (jsReplaceAll env.template siteTok env.siteName) authorTok env.author)
          copydateTok env.copydate) titleTok title) navTok (buildNav env fs))
          contentTok content) ∧
    (∀ (env : Env) (title content : String),
      renderTemplateLegacy env title content =
        jsReplaceFirst (jsReplaceFirst (jsReplaceFirst (jsReplaceFirst
          (jsReplaceFirst env.template siteTok env.siteName) authorTok env.author)
          copydateTok env.copydate) titleTok title) contentTok content) := by
  refine ⟨?_, ?_, ?_, fun env fs title content => rfl, fun env title content => rfl⟩
  · intro s pat rep hp hdollar
    have hd : pat.data ≠ [] := data_ne_nil hp
    simp only [jsReplaceAll, if_neg hd]
    exact congrArg String.mk (replCharsF_const hd
      (fun pos => getSubstitution_no_dollar hdollar) s.data.length 0 s.data le_rfl)
  · intro s pat hp
    have hd : pat.data ≠ [] := data_ne_nil hp
    simp only [jsReplaceAll, if_neg hd]
    have h1 := replCharsF_const hd
      (fun pos => getSubstitution_matched pat.data (s.data.take pos)
        (s.data.drop (pos + pat.data.length))) s.data.length 0 s.data le_rfl
    have h2 := interJoin_splitSeqF hd s.data.length s.data le_rfl
    exact congrArg String.mk (h1.trans h2)
  · intro s pat rep hp hdollar
    have hd : pat.data ≠ [] := data_ne_nil hp
    simp only [jsReplaceFirst, if_neg hd]
    exact congrArg String.mk (replFirstChars_eq hd hdollar s.data.length 0 s.data le_rfl)

/-- C9 (witness): global substitution at a concrete doubled token, and the
dollar-ampersand escape re-inserting the token at both occurrences. -/
theorem c9_witness :
    jsReplaceAll ("x" ++ titleTok ++ "y" ++ titleTok) titleTok "T" =
      ⟨interJoin ("T" : String).data
        (splitSeq titleTok.data ("x" ++ titleTok ++ "y" ++ titleTok : String).data)⟩ ∧
    jsReplaceAll ("x" ++ titleTok ++ "y" ++ titleTok) titleTok "$&" =
      "x" ++ titleTok ++ "y" ++ titleTok :=
  ⟨c9_substitution_characterization.1 ("x" ++ titleTok ++ "y" ++ titleTok) titleTok "T"
      (by decide) (by decide),
   c9_substitution_characterization.2.1 ("x" ++ titleTok ++ "y" ++ titleTok) titleTok
      (by decide)⟩

end Markd
